import Mathlib

/-!
Verification of the BST-visualizer tree-editing and rotation-animation engine
(`TreeVisualizer.tsx`, `treeUtils.ts`, `animationUtils.ts`, `components.tsx`).

Shallow embedding conventions:
* node values are `Int` (JS integers), screen coordinates are `ℚ`
  (exact arithmetic in place of IEEE doubles; all the constants involved —
  0.05, 0.3, 0.7, 0.97, 40, 100, ±50, ±80 — are handled exactly);
* `Math.floor(a / 2)` on integers is `Int.fdiv a 2`, `Math.floor(a * 1.5)`
  is `Int.fdiv (3 * a) 2`;
* the node collection (`useState<TreeNode[]>`) is a `List TreeNode`;
  the `left`/`right` fields, which in the source are embedded object
  references that are only ever consulted through their `.id` field
  (`findParentNode`, `buildNodeMap`, `findIndex(n => n.id === …)`),
  are modelled as `Option Nat` node ids.  A separate explicit-store model
  (`HNode`, `rotationCommitHeap`) is used where object identity and
  in-place mutation matter;
* the distance tests of `findCloseNode` compare `Math.sqrt` results
  against non-negative bounds only, so they are modelled by comparing
  squared distances;
* React state plus the d3 simulation are collapsed into `AppState`, and
  every pointer / timer event is a constructor of `Event`; `appStep` is the
  (purely functional) transition translated from the corresponding handler.
-/

/-- Rotation direction, from `type RotationDirection = 'left' | 'right'`. -/
inductive Dir where
  | left
  | right
deriving DecidableEq, Repr

/-- A 2-D position (`interface Position`). -/
structure Pos where
  x : ℚ
  y : ℚ
deriving DecidableEq, Repr

/-- `interface TreeNode extends Position { id; value; left?; right? }`.
The embedded child object references are modelled by their `id`. -/
structure TreeNode where
  id : Nat
  value : Int
  x : ℚ
  y : ℚ
  left : Option Nat
  right : Option Nat
deriving DecidableEq, Repr

/-- `interface PreviewNode extends Position { value; parentId; isLeft; isChild }`. -/
structure PreviewNode where
  x : ℚ
  y : ℚ
  value : Int
  parentId : Nat
  isLeft : Bool
  isChild : Bool
deriving DecidableEq, Repr

/-- The preview link (`setPreviewLink({... source: nodeForPreview, target: tempPreviewNode ...})`),
kept as the anchor id plus the preview target. -/
structure PreviewLinkData where
  sourceId : Nat
  targetX : ℚ
  targetY : ℚ
  targetValue : Int
deriving DecidableEq, Repr

/-- Kind of an animated link (`type: 'create' | 'delete' | 'reparent'`). -/
inductive LinkKind where
  | create
  | delete
  | reparent
deriving DecidableEq, Repr

/-- The template-string ids `delete-a-b`, `create-a-b`, `reparent-g`
given structurally. -/
inductive LinkId where
  | del (a b : Nat)
  | cre (a b : Nat)
  | rep (g : Nat)
deriving DecidableEq, Repr

/-- `interface AnimatedLinkData` from `types.ts`. -/
structure AnimatedLink where
  linkId : LinkId
  startSource : Pos
  startTarget : Pos
  endSource : Pos
  endTarget : Pos
  type : LinkKind
  progress : ℚ
deriving DecidableEq, Repr

/-- `interface SimulationNode` (id, current position, velocity, target). -/
structure SimNode where
  id : Nat
  x : ℚ
  y : ℚ
  vx : ℚ
  vy : ℚ
  targetX : ℚ
  targetY : ℚ
deriving DecidableEq, Repr

/-- The running d3 force simulation (`simulationRef`) together with the
rotation parameters captured by the `performRotation` closure. -/
structure SimState where
  simNodes : List SimNode
  alpha : ℚ
  nodeId : Nat
  dir : Dir
deriving DecidableEq, Repr

/-- All `useState` pieces of `TreeVisualizer` relevant to the engine, plus
the id allocator standing for `TreeUtils.generateId`. -/
structure AppState where
  nodes : List TreeNode
  nextId : Nat
  previewNode : Option PreviewNode
  previewLink : Option PreviewLinkData
  showRotationFor : Option Nat
  animatedLinks : List AnimatedLink
  isAnimating : Bool
  nodeAnimationComplete : Bool
  sim : Option SimState
deriving DecidableEq, Repr

/-- Pointer and timer events handled by the component.  `click` carries the
random draw used only when creating a root (`Math.floor(Math.random()*50)+5`
becomes `r % 50 + 5`). -/
inductive Event where
  | mouseMove (x y : ℚ)
  | click (x y : ℚ) (r : Nat)
  | contextMenu (nid : Nat)
  | rotate (nid : Nat) (d : Dir)
  | simStep
  | linkTick
deriving DecidableEq, Repr

/-! ## TreeUtils -/

/-- Look a node up by id (`nodes.find(n => n.id === nodeId)`). -/
def getNode (ns : List TreeNode) (i : Nat) : Option TreeNode :=
  ns.find? (fun n => n.id == i)

/-- `TreeUtils.deepCopyNodes`: a deep copy is the identity at the value level. -/
def deepCopyNodes (ns : List TreeNode) : List TreeNode := ns

/-- Index-returning version of `TreeUtils.findParentNode`: scan the array in
order, first testing the `left` then the `right` reference of each node,
and return the index of the first parent found together with the side. -/
def findParentIdxAux (nid : Nat) : List TreeNode → Nat → Option (Nat × Bool)
  | [], _ => none
  | n :: rest, i =>
    if n.left == some nid then some (i, true)
    else if n.right == some nid then some (i, false)
    else findParentIdxAux nid rest (i + 1)

/-- `TreeUtils.findParentNode(nodes, nodeId)` as an index + side. -/
def findParentIdx (ns : List TreeNode) (nid : Nat) : Option (Nat × Bool) :=
  findParentIdxAux nid ns 0

/-- Does some node point at `nid` (the `hasParent` scan in `handleMouseMove`)? -/
def hasParentB (ns : List TreeNode) (nid : Nat) : Bool :=
  ns.any (fun n => n.left == some nid || n.right == some nid)

/-! ## PreviewEngine -/

/-- `findCloseNode(x, y, minDistance, maxDistance)`: fold over the nodes
keeping the closest node whose distance lies in `[minDistance, current best)`,
the best starting at `maxDistance`.  All distances are compared squared. -/
def findCloseNode (ns : List TreeNode) (x y minD maxD : ℚ) : Option TreeNode :=
  (ns.foldl
    (fun acc n =>
      let d2 := (n.x - x) * (n.x - x) + (n.y - y) * (n.y - y)
      if minD * minD ≤ d2 ∧ d2 < acc.2 then (some n, d2) else acc)
    ((none : Option TreeNode), maxD * maxD)).1

/-- `getDefaultChildNodeValue(parentNode, isLeft, allNodes)` translated
clause by clause; `-1` is the invalid sentinel. -/
def getDefaultChildNodeValue (parentNode : TreeNode) (isLeftSide : Bool)
    (allNodes : List TreeNode) : Int :=
  let nodeValues := allNodes.map (·.value)
  if isLeftSide then
    let smallerValues := nodeValues.filter (fun v => decide (v < parentNode.value))
    match smallerValues with
    | [] =>
      let halfValue := Int.fdiv parentNode.value 2
      if nodeValues.contains halfValue || halfValue ≤ 0 then -1 else halfValue
    | v0 :: rest =>
      let maxSmallerValue := rest.foldl max v0
      let midValue := Int.fdiv (parentNode.value + maxSmallerValue) 2
      if nodeValues.contains midValue then -1 else midValue
  else
    let largerValues := nodeValues.filter (fun v => decide (parentNode.value < v))
    match largerValues with
    | [] =>
      let onePointFiveValue := Int.fdiv (3 * parentNode.value) 2
      if nodeValues.contains onePointFiveValue then -1 else onePointFiveValue
    | v0 :: rest =>
      let minLargerValue := rest.foldl min v0
      let midValue := Int.fdiv (parentNode.value + minLargerValue) 2
      if nodeValues.contains midValue then -1 else midValue

/-- `handleMouseMove`: rotation ring `[0, 40)` first, then preview anchor in
`[40, 100)`, then slot-occupancy / existing-parent / sentinel rejections,
then the ±80 preview placement. -/
def handleMouseMove (s : AppState) (x y : ℚ) : AppState :=
  match findCloseNode s.nodes x y 0 40 with
  | some nodeForRotation =>
    { s with showRotationFor := some nodeForRotation.id,
             previewNode := none, previewLink := none }
  | none =>
    match findCloseNode s.nodes x y 40 100 with
    | some nodeForPreview =>
      let dx := x - nodeForPreview.x
      let dy := y - nodeForPreview.y
      let isLeftSide : Bool := decide (dx < 0)
      let isChildPos : Bool := decide (0 < dy)
      if isChildPos &&
          ((isLeftSide && nodeForPreview.left.isSome) ||
           (!isLeftSide && nodeForPreview.right.isSome)) then
        { s with showRotationFor := none, previewNode := none, previewLink := none }
      else if !isChildPos && hasParentB s.nodes nodeForPreview.id then
        { s with showRotationFor := none, previewNode := none, previewLink := none }
      else
        let finalValue := getDefaultChildNodeValue nodeForPreview isLeftSide s.nodes
        if finalValue == -1 then
          { s with showRotationFor := none, previewNode := none, previewLink := none }
        else
          let previewX := nodeForPreview.x + (if isLeftSide then -80 else 80)
          let previewY := nodeForPreview.y + (if isChildPos then 80 else -80)
          { s with
            showRotationFor := none,
            previewNode := some
              { x := previewX, y := previewY, value := finalValue,
                parentId := nodeForPreview.id,
                isLeft := isLeftSide, isChild := isChildPos },
            previewLink := some
              { sourceId := nodeForPreview.id, targetX := previewX,
                targetY := previewY, targetValue := finalValue } }
    | none =>
      { s with showRotationFor := none, previewNode := none, previewLink := none }

/-! ## InputController: click commit and leaf deletion -/

/-- `handleClick`: commit a live preview (child insert or parent insert with
the grandparent scan), or create a root on an empty canvas; always clear the
preview afterwards. -/
def handleClick (s : AppState) (x y : ℚ) (r : Nat) : AppState :=
  match s.previewNode with
  | some pv =>
    let newNodeBase : TreeNode :=
      { id := s.nextId, value := pv.value, x := pv.x, y := pv.y,
        left := none, right := none }
    let ns' :=
      match s.nodes.findIdx? (fun n => n.id == pv.parentId) with
      | none => s.nodes ++ [newNodeBase]
      | some parentIdx =>
        match s.nodes[parentIdx]? with
        | none => s.nodes ++ [newNodeBase]
        | some parentNode =>
          if pv.isChild then
            let parent' :=
              if pv.isLeft then { parentNode with left := some newNodeBase.id }
              else { parentNode with right := some newNodeBase.id }
            s.nodes.set parentIdx parent' ++ [newNodeBase]
          else
            let ns1 :=
              match findParentIdx s.nodes pv.parentId with
              | some (gIdx, isL) =>
                match s.nodes[gIdx]? with
                | none => s.nodes
                | some g =>
                  s.nodes.set gIdx
                    (if isL then { g with left := some newNodeBase.id }
                     else { g with right := some newNodeBase.id })
              | none => s.nodes
            let newNode :=
              if pv.isLeft then { newNodeBase with right := some pv.parentId }
              else { newNodeBase with left := some pv.parentId }
            ns1 ++ [newNode]
    { s with nodes := ns', nextId := s.nextId + 1,
             previewNode := none, previewLink := none }
  | none =>
    if s.nodes.isEmpty then
      let rootNode : TreeNode :=
        { id := s.nextId, value := Int.ofNat (r % 50 + 5), x := x, y := y,
          left := none, right := none }
      { s with nodes := [rootNode], nextId := s.nextId + 1,
               previewNode := none, previewLink := none }
    else
      { s with previewNode := none, previewLink := none }

/-- The node-collection update of `handleContextMenu` once the leaf guard has
passed: deep copy, clear the first parent's matching reference, drop the node. -/
def deleteLeafFromNodes (ns : List TreeNode) (nid : Nat) : List TreeNode :=
  let copied := deepCopyNodes ns
  let ns1 :=
    match findParentIdx copied nid with
    | none => copied
    | some (pIdx, isL) =>
      match copied[pIdx]? with
      | none => copied
      | some p =>
        copied.set pIdx
          (if isL then { p with left := none } else { p with right := none })
  ns1.filter (fun n => !(n.id == nid))

/-- `handleContextMenu(event, nodeToDelete)`: no-op unless the clicked node is
a leaf.  The clicked render object is the current array entry with that id. -/
def handleContextMenu (s : AppState) (nid : Nat) : AppState :=
  match getNode s.nodes nid with
  | none => s
  | some nodeToDelete =>
    if nodeToDelete.left.isSome || nodeToDelete.right.isSome then s
    else { s with nodes := deleteLeafFromNodes s.nodes nid }

/-! ## RotationAnimationEngine: structural rotation -/

/-- The rotation child slot: `childProperty = direction === 'left' ? 'right' : 'left'`. -/
def childOf (n : TreeNode) : Dir → Option Nat
  | .left => n.right
  | .right => n.left

/-- The inner-grandchild slot: `grandchildProperty = direction === 'left' ? 'left' : 'right'`. -/
def grandOf (n : TreeNode) : Dir → Option Nat
  | .left => n.left
  | .right => n.right

/-- Write the rotation child slot of a node. -/
def setChildOf (n : TreeNode) (d : Dir) (v : Option Nat) : TreeNode :=
  match d with
  | .left => { n with right := v }
  | .right => { n with left := v }

/-- Write the inner-grandchild slot of a node. -/
def setGrandOf (n : TreeNode) (d : Dir) (v : Option Nat) : TreeNode :=
  match d with
  | .left => { n with left := v }
  | .right => { n with right := v }

/-- The structural part of the rotation commit (`setNodes` updater inside
`performRotation`): re-find the node and its rotation child, compute the
grandchild handover (left unchanged when the grandchild id is dangling,
exactly as in the source, where the copy is skipped when
`findIndex` returns `-1`), repoint the first-scanned parent.  List writes are
sequenced in program order so that aliased updates land like the in-place
object mutations they model. -/
def rotateStruct (ns : List TreeNode) (nodeId : Nat) (d : Dir) : List TreeNode :=
  match ns.findIdx? (fun n => n.id == nodeId) with
  | none => ns
  | some nIdx =>
    match ns[nIdx]? with
    | none => ns
    | some node =>
      match childOf node d with
      | none => ns
      | some childId =>
        match ns.findIdx? (fun n => n.id == childId) with
        | none => ns
        | some cIdx =>
          match ns[cIdx]? with
          | none => ns
          | some child =>
            let parentInfo := findParentIdx ns nodeId
            let newSlot : Option Nat :=
              match grandOf child d with
              | some gId =>
                if (ns.findIdx? (fun n => n.id == gId)).isSome then some gId
                else childOf node d
              | none => none
            let node' := setChildOf node d newSlot
            let child' := setGrandOf child d (some nodeId)
            let ns1 := (ns.set nIdx node').set cIdx child'
            match parentInfo with
            | none => ns1
            | some (pIdx, isL) =>
              match ns1[pIdx]? with
              | none => ns1
              | some pNode =>
                ns1.set pIdx
                  (if isL then { pNode with left := some childId }
                   else { pNode with right := some childId })

/-! ## AnimationUtils -/

/-- `calculateRotationTargetPositions`: the rotated node moves diagonally
down, its rotation child takes its place.  The association list is kept in
reverse insertion order so that a `find?` lookup sees the last `Map.set`. -/
def calculateRotationTargetPositions (node childNode : TreeNode) (d : Dir) :
    List (Nat × Pos) :=
  match d with
  | .left => [(childNode.id, ⟨node.x, node.y⟩), (node.id, ⟨node.x - 50, node.y + 50⟩)]
  | .right => [(childNode.id, ⟨node.x, node.y⟩), (node.id, ⟨node.x + 50, node.y + 50⟩)]

/-- Target-map lookup. -/
def lookupTarget (ts : List (Nat × Pos)) (i : Nat) : Option Pos :=
  (ts.find? (fun p => p.1 == i)).map (·.2)

/-- `createSimulationNodes(treeNodes, targetPositions)`: every node keeps its
own position as its target unless the map overrides it; velocities start 0. -/
def createSimulationNodes (treeNodes : List TreeNode) (targets : List (Nat × Pos)) :
    List SimNode :=
  treeNodes.map (fun n =>
    match lookupTarget targets n.id with
    | some t =>
      { id := n.id, x := n.x, y := n.y, vx := 0, vy := 0,
        targetX := t.x, targetY := t.y }
    | none =>
      { id := n.id, x := n.x, y := n.y, vx := 0, vy := 0,
        targetX := n.x, targetY := n.y })

/-- `createRotationAnimatedLinks(node, childNode, grandchildNode, direction)`:
the delete / create pair, plus a reparent link when the inner grandchild
exists, all with `progress = 0`. -/
def createRotationAnimatedLinks (node childNode : TreeNode)
    (grandchildNode : Option TreeNode) (d : Dir) : List AnimatedLink :=
  let nodeNewPosition : Pos :=
    match d with
    | .left => ⟨node.x - 50, node.y + 50⟩
    | .right => ⟨node.x + 50, node.y + 50⟩
  let deleteLink : AnimatedLink :=
    { linkId := .del node.id childNode.id,
      startSource := ⟨node.x, node.y⟩, startTarget := ⟨childNode.x, childNode.y⟩,
      endSource := ⟨node.x, node.y⟩, endTarget := ⟨childNode.x, childNode.y⟩,
      type := .delete, progress := 0 }
  let createLink : AnimatedLink :=
    { linkId := .cre childNode.id node.id,
      startSource := ⟨childNode.x, childNode.y⟩, startTarget := nodeNewPosition,
      endSource := ⟨childNode.x, childNode.y⟩, endTarget := nodeNewPosition,
      type := .create, progress := 0 }
  match grandchildNode with
  | none => [deleteLink, createLink]
  | some g =>
    [deleteLink, createLink,
     { linkId := .rep g.id,
       startSource := ⟨childNode.x, childNode.y⟩, startTarget := ⟨g.x, g.y⟩,
       endSource := nodeNewPosition, endTarget := ⟨g.x, g.y⟩,
       type := .reparent, progress := 0 }]

/-- `AnimationUtils.updateAnimatedLinks`: advance every progress by the fixed
increment 0.05, capped at 1. -/
def updateAnimatedLinks (links : List AnimatedLink) : List AnimatedLink :=
  match links with
  | [] => links
  | _ :: _ => links.map (fun l => { l with progress := min (l.progress + 1/20) 1 })

/-- One d3 integration step at the (already decayed) alpha: the custom target
force sets `v = (target − current) · alpha · 0.3`, d3 applies the velocity
decay factor `1 − 0.3 = 0.7` and integrates. -/
def simTickNodes (sns : List SimNode) (alpha : ℚ) : List SimNode :=
  sns.map (fun n =>
    let vx := (n.targetX - n.x) * alpha * (3/10) * (7/10)
    let vy := (n.targetY - n.y) * alpha * (3/10) * (7/10)
    { n with vx := vx, vy := vy, x := n.x + vx, y := n.y + vy })

/-- The `end`-handler snap: every simulation node lands exactly on its target. -/
def snapSimNodes (sns : List SimNode) : List SimNode :=
  sns.map (fun n => { n with x := n.targetX, y := n.targetY })

/-- One step of the position write-back at the end of the commit: locate the
tree node of the simulation node's id and overwrite its coordinates. -/
def applyOneSim (acc : List TreeNode) (sn : SimNode) : List TreeNode :=
  match acc.findIdx? (fun n => n.id == sn.id) with
  | none => acc
  | some i =>
    match acc[i]? with
    | none => acc
    | some n => acc.set i { n with x := sn.x, y := sn.y }

/-- The position write-back at the end of the commit
(`simNodes.forEach(... newNodes[nodeIndex].x = simNode.x ...)`). -/
def applySimPositions (ns : List TreeNode) (sns : List SimNode) : List TreeNode :=
  sns.foldl applyOneSim ns

/-! ## RotationAnimationEngine: state machine -/

/-- Do the commit-time re-lookups succeed (node found, rotation child
reference present, child found)?  When they fail the updater aborts with
`return prevNodes` after `setIsAnimating(false)`. -/
def commitOKB (ns : List TreeNode) (ss : SimState) : Bool :=
  match ns.find? (fun n => n.id == ss.nodeId) with
  | none => false
  | some node =>
    match childOf node ss.dir with
    | none => false
    | some cid => (ns.find? (fun n => n.id == cid)).isSome

/-- The tree produced by the rotation commit of the running simulation:
structural rotation plus the snapped (target) positions. -/
def commitTree (s : AppState) : List TreeNode :=
  match s.sim with
  | none => s.nodes
  | some ss =>
    applySimPositions (rotateStruct s.nodes ss.nodeId ss.dir) (snapSimNodes ss.simNodes)

/-- One d3 simulation step: decay alpha by the configured 0.03, integrate,
and when alpha drops below `alphaMin = 0.1` fire the `end` handler — snap,
set `nodeAnimationComplete`, and run the structural commit (or its
defensive abort). -/
def simStepFn (s : AppState) : AppState :=
  match s.sim with
  | none => s
  | some ss =>
    let alpha' := ss.alpha * (97/100)
    let sns' := simTickNodes ss.simNodes alpha'
    if alpha' < 1/10 then
      if commitOKB s.nodes ss then
        { s with sim := none, nodeAnimationComplete := true,
                 nodes := applySimPositions (rotateStruct s.nodes ss.nodeId ss.dir)
                            (snapSimNodes sns') }
      else
        { s with sim := none, nodeAnimationComplete := true, isAnimating := false }
    else
      { s with sim := some { ss with alpha := alpha', simNodes := sns' } }

/-- `performRotation(nodeId, direction)`: drop the request while animating;
otherwise validate, build the animated links and the target-seeking
simulation, and enter the node-movement phase. -/
def performRotation (s : AppState) (nodeId : Nat) (d : Dir) : AppState :=
  if s.isAnimating then s
  else
    let s1 := { s with isAnimating := true, nodeAnimationComplete := false,
                       sim := none }
    match s1.nodes.find? (fun n => n.id == nodeId) with
    | none => { s1 with isAnimating := false }
    | some node =>
      match childOf node d with
      | none => { s1 with isAnimating := false }
      | some childId =>
        match s1.nodes.find? (fun n => n.id == childId) with
        | none => { s1 with isAnimating := false }
        | some childNode =>
          let grandchild : Option TreeNode :=
            match grandOf childNode d with
            | some gid => s1.nodes.find? (fun n => n.id == gid)
            | none => none
          let als := createRotationAnimatedLinks node childNode grandchild d
          let targets := calculateRotationTargetPositions node childNode d
          let sns := createSimulationNodes s1.nodes targets
          { s1 with animatedLinks := als,
                    sim := some { simNodes := sns, alpha := 4/5,
                                  nodeId := nodeId, dir := d } }

/-- The link-animation `useEffect` body on one ~16 ms timer tick: guarded on
`isAnimating && nodeAnimationComplete && animatedLinks.length > 0`; clears
everything when all links reached progress 1, otherwise advances them. -/
def linkTickFn (s : AppState) : AppState :=
  if s.isAnimating && s.nodeAnimationComplete && !s.animatedLinks.isEmpty then
    if s.animatedLinks.all (fun l => decide ((1 : ℚ) ≤ l.progress)) then
      { s with animatedLinks := [], isAnimating := false,
               nodeAnimationComplete := false }
    else
      { s with animatedLinks := updateAnimatedLinks s.animatedLinks }
  else s

/-- The event dispatcher. -/
def appStep (s : AppState) (e : Event) : AppState :=
  match e with
  | .mouseMove x y => handleMouseMove s x y
  | .click x y r => handleClick s x y r
  | .contextMenu nid => handleContextMenu s nid
  | .rotate nid d => performRotation s nid d
  | .simStep => simStepFn s
  | .linkTick => linkTickFn s

/-- Run a sequence of events. -/
def runEvents (s : AppState) (es : List Event) : AppState :=
  es.foldl appStep s

/-- The animated links actually rendered: the `Link` component returns `null`
for every animated link while `nodeAnimationComplete` is false. -/
def renderedAnimatedLinks (s : AppState) : List AnimatedLink :=
  if s.nodeAnimationComplete then s.animatedLinks else []

/-! ## Specification-side definitions (for refinement claims) -/

/-- Modelled from the spec's words for the child-left default value:
"among all current values smaller than anchor's value, take the maximum;
candidate = floor((anchor+max)/2); if no smaller values exist, candidate =
floor(anchor×0.5)". -/
def specLeftValue (anchor : TreeNode) (ns : List TreeNode) : Int :=
  let values := ns.map (·.value)
  match (values.filter (fun v => decide (v < anchor.value))).max? with
  | some m => Int.fdiv (anchor.value + m) 2
  | none => Int.fdiv anchor.value 2

/-- Modelled from the spec's words for the child-right default value:
"symmetric using the minimum value larger than anchor; fallback candidate =
floor(anchor×1.5)". -/
def specRightValue (anchor : TreeNode) (ns : List TreeNode) : Int :=
  let values := ns.map (·.value)
  match (values.filter (fun v => decide (anchor.value < v))).min? with
  | some m => Int.fdiv (anchor.value + m) 2
  | none => Int.fdiv (3 * anchor.value) 2

/-! ## Well-formedness predicates -/

/-- Node ids are pairwise distinct. -/
def NodupIds (ns : List TreeNode) : Prop := (ns.map (·.id)).Nodup

/-- The multiset of all child references of the collection. -/
def childRefs (ns : List TreeNode) : List Nat :=
  ns.foldr (fun n acc => n.left.toList ++ (n.right.toList ++ acc)) []

/-- Every non-root node has at most one parent: no id occurs twice among the
child references. -/
def UniqueParent (ns : List TreeNode) : Prop := (childRefs ns).Nodup

/-- Every child reference resolves to a node of the collection. -/
def ClosedRefs (ns : List TreeNode) : Prop :=
  ∀ n ∈ ns, (∀ i ∈ n.left, ∃ m ∈ ns, m.id = i) ∧ (∀ i ∈ n.right, ∃ m ∈ ns, m.id = i)

/-- Ids and child references are all below the allocator counter, so a newly
generated id is fresh. -/
def FreshRefs (s : AppState) : Prop :=
  ∀ n ∈ s.nodes, n.id < s.nextId ∧ (∀ i ∈ n.left, i < s.nextId) ∧
    (∀ i ∈ n.right, i < s.nextId)

/-- The BST edge invariant of the spec: for every node, a resolvable left
child has a smaller value and a resolvable right child a larger one. -/
def bstEdgesOK (ns : List TreeNode) : Bool :=
  ns.all (fun n =>
    (match n.left with
     | some i =>
       match getNode ns i with
       | some c => decide (c.value < n.value)
       | none => true
     | none => true) &&
    (match n.right with
     | some i =>
       match getNode ns i with
       | some c => decide (n.value < c.value)
       | none => true
     | none => true))

/-! ## Link-animation helpers -/

/-- The per-link body of `updateAnimatedLinks`. -/
def advanceLink (l : AnimatedLink) : AnimatedLink :=
  { l with progress := min (l.progress + 1/20) 1 }

/-- Iterated animation ticks. -/
def updateAnimatedLinksIter : Nat → List AnimatedLink → List AnimatedLink
  | 0, ls => ls
  | n + 1, ls => updateAnimatedLinksIter n (updateAnimatedLinks ls)

/-! ## Rotation-engine observables -/

/-- The events owned by the rotation engine (requests and timer ticks). -/
def engineEventB : Event → Bool
  | .rotate _ _ => true
  | .simStep => true
  | .linkTick => true
  | _ => false

/-- While a simulation runs, its captured node and rotation child must still
be resolvable in the committed collection. -/
def simOKB (s : AppState) : Bool :=
  match s.sim with
  | none => true
  | some ss => commitOKB s.nodes ss

/-- Engine-phase invariant: a running simulation implies the animating flag,
an unfinished node phase, and resolvable rotation participants. -/
def invB (s : AppState) : Bool :=
  match s.sim with
  | none => true
  | some _ => s.isAnimating && !s.nodeAnimationComplete && simOKB s

/-- Does this event end the node-movement simulation (the structural-commit
transition)? -/
def commitStepB (s : AppState) (e : Event) : Bool :=
  s.sim.isSome && (appStep s e).sim.isNone

/-- Number of commit transitions along a run. -/
def convCount : AppState → List Event → Nat
  | _, [] => 0
  | s, e :: es => (if commitStepB s e then 1 else 0) + convCount (appStep s e) es

/-- Will the next simulation step cross `alphaMin`? -/
def simConvergingB (s : AppState) : Bool :=
  match s.sim with
  | none => false
  | some ss => decide (ss.alpha * (97/100) < 1/10)

/-- Observable identity and target of each simulation node (the data the
`end`-handler snap and the position write-back depend on). -/
def simTargets (sns : List SimNode) : List (Nat × ℚ × ℚ) :=
  sns.map (fun n => (n.id, n.targetX, n.targetY))

/-- The node-movement phase of the rotation accepted at `s1`: the committed
tree is still the one captured at acceptance, no link is renderable yet, and
the running simulation still carries the accepted rotation's node, direction
and targets. -/
def PrePhase (s1 s : AppState) : Prop :=
  s.nodes = s1.nodes ∧ s.isAnimating = true ∧ s.nodeAnimationComplete = false ∧
  ∃ ss1 ss, s1.sim = some ss1 ∧ s.sim = some ss ∧
    ss.nodeId = ss1.nodeId ∧ ss.dir = ss1.dir ∧
    simTargets ss.simNodes = simTargets ss1.simNodes

/-! ## Explicit-store model of the rotation commit

In the source the node array holds object references and the commit mutates
some of them in place.  `HNode` is a heap object whose `left`/`right` fields
are store indices (object references), a snapshot is the list of store
indices held by the React array, and `{ ...obj }` copies are fresh
allocations (appends to the store). -/

/-- A heap-allocated node object; `left`/`right` are object references. -/
structure HNode where
  id : Nat
  value : Int
  x : ℚ
  y : ℚ
  left : Option Nat
  right : Option Nat
deriving DecidableEq, Repr

/-- Read the id of the object behind a reference. -/
def refObjId (store : List HNode) (r : Nat) : Option Nat :=
  (store[r]?).map (·.id)

/-- `childProperty` slot of a heap object. -/
def hChildOf (n : HNode) : Dir → Option Nat
  | .left => n.right
  | .right => n.left

/-- `grandchildProperty` slot of a heap object. -/
def hGrandOf (n : HNode) : Dir → Option Nat
  | .left => n.left
  | .right => n.right

/-- Write the `childProperty` slot. -/
def hSetChildOf (n : HNode) (d : Dir) (v : Option Nat) : HNode :=
  match d with
  | .left => { n with right := v }
  | .right => { n with left := v }

/-- Write the `grandchildProperty` slot. -/
def hSetGrandOf (n : HNode) (d : Dir) (v : Option Nat) : HNode :=
  match d with
  | .left => { n with left := v }
  | .right => { n with right := v }

/-- `TreeUtils.findParentNode` over the heap: scan the snapshot in order,
dereferencing the embedded child references to compare ids. -/
def heapFindParentIdxAux (store : List HNode) (nid : Nat) :
    List Nat → Nat → Option (Nat × Bool)
  | [], _ => none
  | r :: rest, i =>
    match store[r]? with
    | none => heapFindParentIdxAux store nid rest (i + 1)
    | some obj =>
      if (obj.left.bind (fun lr => refObjId store lr)) == some nid then some (i, true)
      else if (obj.right.bind (fun rr => refObjId store rr)) == some nid then
        some (i, false)
      else heapFindParentIdxAux store nid rest (i + 1)

/-- Entry point of the heap parent scan. -/
def heapFindParentIdx (store : List HNode) (snap : List Nat) (nid : Nat) :
    Option (Nat × Bool) :=
  heapFindParentIdxAux store nid snap 0

/-- The `setNodes` updater of `performRotation` over the explicit store:
`{ ...node }` copies allocate, `findIndex`/`findParentNode` scan the array,
and the relationship updates, the parent repoint and the position write-back
are stores through the references the source mutates.  Returns the store and
the array returned by the updater. -/
def rotationCommitHeap (store : List HNode) (snap : List Nat) (nodeId : Nat)
    (d : Dir) (sns : List SimNode) : List HNode × List Nat :=
  match snap.findIdx? (fun r => refObjId store r == some nodeId) with
  | none => (store, snap)
  | some nIdx =>
    match snap[nIdx]? with
    | none => (store, snap)
    | some _ =>
      match (snap[nIdx]?.bind fun nRef => store[nRef]?) with
      | none => (store, snap)
      | some nObj =>
        let fnRef := store.length
        let store1 := store ++ [nObj]
        let snap1 := snap.set nIdx fnRef
        match hChildOf nObj d with
        | none => (store1, snap)
        | some cRefEmb =>
          match refObjId store1 cRefEmb with
          | none => (store1, snap)
          | some childId =>
            match snap1.findIdx? (fun r => refObjId store1 r == some childId) with
            | none => (store1, snap)
            | some cIdx =>
              match (snap1[cIdx]?.bind fun cRef => store1[cRef]?) with
              | none => (store1, snap)
              | some cObj =>
                let fcRef := store1.length
                let store2 := store1 ++ [cObj]
                let snap2 := snap1.set cIdx fcRef
                let pInfo := heapFindParentIdx store2 snap2 nodeId
                let allocRight : List HNode × Option Nat :=
                  match hGrandOf cObj d with
                  | none => (store2, none)
                  | some gRef =>
                    match store2[gRef]? with
                    | none => (store2, hChildOf nObj d)
                    | some gObj =>
                      if (snap2.findIdx?
                            (fun r => refObjId store2 r == some gObj.id)).isSome then
                        (store2 ++ [gObj], some store2.length)
                      else (store2, hChildOf nObj d)
                let storeB := allocRight.1.set fnRef (hSetChildOf nObj d allocRight.2)
                let storeC := storeB.set fcRef (hSetGrandOf cObj d (some fnRef))
                let storeD :=
                  match pInfo with
                  | none => storeC
                  | some (pIdx, isL) =>
                    match snap2[pIdx]? with
                    | none => storeC
                    | some pRef =>
                      match storeC[pRef]? with
                      | none => storeC
                      | some pObj =>
                        storeC.set pRef
                          (if isL then { pObj with left := some fcRef }
                           else { pObj with right := some fcRef })
                let storeE := sns.foldl
                  (fun st sn =>
                    match snap2.findIdx? (fun r => refObjId st r == some sn.id) with
                    | none => st
                    | some i =>
                      match snap2[i]? with
                      | none => st
                      | some r =>
                        match st[r]? with
                        | none => st
                        | some obj => st.set r { obj with x := sn.x, y := sn.y })
                  storeD
                (storeE, snap2)

/-! ## Concrete fixtures used by witnesses and counterexamples -/

/-- A fresh delete-link with progress 0. -/
def linkA : AnimatedLink :=
  { linkId := .del 0 1, startSource := ⟨0, 0⟩, startTarget := ⟨1, 1⟩,
    endSource := ⟨0, 0⟩, endTarget := ⟨1, 1⟩, type := .delete, progress := 0 }

/-- A two-node tree (root 20, right child 30) mid-animation. -/
def stateAnim : AppState :=
  { nodes := [⟨0, 20, 100, 100, none, some 1⟩, ⟨1, 30, 180, 180, none, none⟩],
    nextId := 2, previewNode := none, previewLink := none,
    showRotationFor := none, animatedLinks := [], isAnimating := true,
    nodeAnimationComplete := false, sim := none }

/-- The single-root state of the spec's example scenario 2: value 20 at
(100,100). -/
def s20 : AppState :=
  { nodes := [⟨0, 20, 100, 100, none, none⟩], nextId := 1, previewNode := none,
    previewLink := none, showRotationFor := none, animatedLinks := [],
    isAnimating := false, nodeAnimationComplete := false, sim := none }

/-- Root 20 with right child 30, idle: the state from which the C10 race is
driven. -/
def s10 : AppState :=
  { nodes := [⟨0, 20, 100, 100, none, some 1⟩, ⟨1, 30, 180, 180, none, none⟩],
    nextId := 2, previewNode := none, previewLink := none, showRotationFor := none,
    animatedLinks := [], isAnimating := false, nodeAnimationComplete := false,
    sim := none }

/-- Accepted left rotation on the root, then a pointer move creating a
parent-insertion preview for the (still parentless) root, then enough
simulation ticks for alpha to decay below 0.1 and commit the rotation. -/
def c10events : List Event :=
  [Event.rotate 0 Dir.left, Event.mouseMove 40 40] ++ List.replicate 69 Event.simStep

/-- A node of value -1: its edges vacuously satisfy the BST ordering. -/
def sNeg : AppState :=
  { nodes := [⟨0, -1, 0, 0, none, none⟩], nextId := 1, previewNode := none,
    previewLink := none, showRotationFor := none, animatedLinks := [],
    isAnimating := false, nodeAnimationComplete := false, sim := none }

/-- A four-node chain for the rotation round trip: 0 → right 1 → right 2,
and 2 has left child 3. -/
def ns2c : List TreeNode :=
  [⟨0, 10, 0, 0, none, some 1⟩, ⟨1, 20, 50, 50, none, some 2⟩,
   ⟨2, 30, 100, 100, some 3, none⟩, ⟨3, 25, 75, 75, none, none⟩]

/-- The node of id 1 in `ns2c`. -/
def n2u : TreeNode := ⟨1, 20, 50, 50, none, some 2⟩

/-- The node of id 2 in `ns2c`. -/
def n2p : TreeNode := ⟨2, 30, 100, 100, some 3, none⟩

/-- The accepted left rotation on the root of `s10`, at the start of its
node-movement phase. -/
def c3s1 : AppState := performRotation s10 0 Dir.left

/-- A full engine run: 69 simulation timer ticks (enough for alpha to decay
below `alphaMin`) followed by 21 link timer ticks. -/
def c3es : List Event :=
  List.replicate 69 Event.simStep ++ List.replicate 21 Event.linkTick

/-- Heap store for the commit fixture: P(15) at cell 0 with left reference to
cell 1, N(10) at cell 1 with right reference to cell 2, C(12) at cell 2. -/
def c4store : List HNode :=
  [⟨0, 15, 100, 100, some 1, none⟩, ⟨1, 10, 20, 180, none, some 2⟩,
   ⟨2, 12, 100, 260, none, none⟩]

/-- The committed snapshot before the rotation: references to cells 0, 1, 2. -/
def c4snap : List Nat := [0, 1, 2]

/-- Converged simulation nodes for the commit fixture. -/
def c4sns : List SimNode :=
  [⟨0, 100, 100, 0, 0, 100, 100⟩, ⟨1, -30, 230, 0, 0, -30, 230⟩,
   ⟨2, 20, 180, 0, 0, 20, 180⟩]

/-! # Theorems -/

/-! ## C5: animated-link progress -/

theorem updateAnimatedLinks_eq_map (ls : List AnimatedLink) :
    updateAnimatedLinks ls = ls.map advanceLink := by
  cases ls <;> rfl

theorem advanceLink_progress_le_one (l : AnimatedLink) :
    (advanceLink l).progress ≤ 1 :=
  min_le_right _ _

theorem advanceLink_iterate_progress (n : ℕ) :
    ∀ l : AnimatedLink, l.progress ≤ 1 →
      (advanceLink^[n] l).progress = min (l.progress + n * (1/20)) 1 := by
  induction n with
  | zero => intro l h; simp [min_eq_left h]
  | succ n ih =>
    intro l h
    rw [Function.iterate_succ_apply, ih _ (advanceLink_progress_le_one l)]
    show min (min (l.progress + 1/20) 1 + n * (1/20)) 1 = _
    rcases le_or_lt (l.progress + 1/20) 1 with h1 | h1
    · rw [min_eq_left h1]
      congr 1
      push_cast
      ring
    · have hn : (0 : ℚ) ≤ n * (1/20) := by positivity
      have h2 : (1 : ℚ) ≤ l.progress + (n + 1 : ℕ) * (1/20) := by
        push_cast
        linarith
      have h3 : (1 : ℚ) ≤ 1 + n * (1/20) := by linarith
      rw [min_eq_right h1.le, min_eq_right h2, min_eq_right h3]

theorem updateAnimatedLinksIter_eq_map (n : ℕ) :
    ∀ ls : List AnimatedLink, updateAnimatedLinksIter n ls = ls.map (advanceLink^[n]) := by
  induction n with
  | zero => intro ls; simp [updateAnimatedLinksIter]
  | succ n ih =>
    intro ls
    rw [updateAnimatedLinksIter, ih, updateAnimatedLinks_eq_map, List.map_map,
      Function.iterate_succ]

/-- Claim C5: on each tick every animated link's progress is advanced by the
fixed increment 0.05 capped at 1 (so it never decreases and never exceeds
1.0), and after 20 ticks from any valid state every link's progress is
exactly 1. -/
theorem c5_progress_monotone_capped (ls : List AnimatedLink)
    (h : ∀ l ∈ ls, 0 ≤ l.progress ∧ l.progress ≤ 1) :
    updateAnimatedLinks ls = ls.map advanceLink
    ∧ (∀ l ∈ ls, l.progress ≤ (advanceLink l).progress)
    ∧ (∀ l ∈ updateAnimatedLinks ls, l.progress ≤ 1)
    ∧ (∀ l ∈ updateAnimatedLinksIter 20 ls, l.progress = 1) := by
  refine ⟨updateAnimatedLinks_eq_map ls, ?_, ?_, ?_⟩
  · intro l hl
    have := (h l hl).2
    refine le_min (by linarith) this
  · intro l hl
    rw [updateAnimatedLinks_eq_map] at hl
    rcases List.mem_map.1 hl with ⟨l', _, rfl⟩
    exact advanceLink_progress_le_one l'
  · intro l hl
    rw [updateAnimatedLinksIter_eq_map] at hl
    rcases List.mem_map.1 hl with ⟨l', hl', rfl⟩
    rw [advanceLink_iterate_progress 20 l' (h l' hl').2]
    have h0 := (h l' hl').1
    have : (1 : ℚ) ≤ l'.progress + (20 : ℕ) * (1/20) := by push_cast; linarith
    rw [min_eq_right this]

/-- Witness for C5 at a concrete link list. -/
theorem c5_progress_monotone_capped_witness :
    (∀ l ∈ [linkA], 0 ≤ l.progress ∧ l.progress ≤ 1)
    ∧ (∀ l ∈ updateAnimatedLinksIter 20 [linkA], l.progress = 1) := by
  have h : ∀ l ∈ [linkA], 0 ≤ l.progress ∧ l.progress ≤ 1 := by
    intro l hl
    simp only [List.mem_singleton] at hl
    subst hl
    constructor <;> norm_num [linkA]
  exact ⟨h, (c5_progress_monotone_capped _ h).2.2.2⟩

/-! ## C6: in-flight rotation requests are dropped -/

/-- Claim C6: a rotation request while `isAnimating` is set (node movement or
link animation in flight) leaves the entire engine state unchanged — the
tree, the animated links and the simulation are untouched and nothing is
queued. -/
theorem c6_rotation_request_dropped (s : AppState) (nid : Nat) (d : Dir)
    (h : s.isAnimating = true) : appStep s (.rotate nid d) = s := by
  simp [appStep, performRotation, h]

/-- Witness for C6 at a concrete mid-animation state. -/
theorem c6_rotation_request_dropped_witness :
    stateAnim.isAnimating = true ∧ appStep stateAnim (.rotate 0 .left) = stateAnim :=
  ⟨rfl, c6_rotation_request_dropped stateAnim 0 .left rfl⟩

/-! ## C7: preview rejection -/

/-- Claim C7: whenever the pointer classification selects a preview anchor
and targets an occupied child slot, or targets a parent insertion on an
anchor that already has a parent, or the computed default value is the `-1`
sentinel, then both the preview node and the preview link are `none`. -/
theorem c7_preview_rejected (s : AppState) (x y : ℚ) (a : TreeNode)
    (ha : findCloseNode s.nodes x y 40 100 = some a)
    (hrej :
      ((0 < y - a.y) ∧ (if x - a.x < 0 then a.left.isSome = true else a.right.isSome = true))
      ∨ (¬ (0 < y - a.y) ∧ hasParentB s.nodes a.id = true)
      ∨ getDefaultChildNodeValue a (decide (x - a.x < 0)) s.nodes = -1) :
    (handleMouseMove s x y).previewNode = none
    ∧ (handleMouseMove s x y).previewLink = none := by
  unfold handleMouseMove
  cases hrot : findCloseNode s.nodes x y 0 40 with
  | some n => simp
  | none =>
    rw [ha]
    simp only
    split_ifs with h1 h2 h3
    · simp
    · simp
    · simp
    · exfalso
      rcases hrej with ⟨hc, hocc⟩ | ⟨hc, hp⟩ | hv
      · apply h1
        simp only [Bool.and_eq_true, Bool.or_eq_true, decide_eq_true_eq, Bool.not_eq_true']
        refine ⟨hc, ?_⟩
        by_cases hL : x - a.x < 0
        · left
          rw [if_pos hL] at hocc
          exact ⟨by simp [hL], hocc⟩
        · right
          rw [if_neg hL] at hocc
          exact ⟨by simp [hL], hocc⟩
      · apply h2
        simp only [Bool.and_eq_true, Bool.not_eq_true', decide_eq_false_iff_not]
        exact ⟨hc, hp⟩
      · apply h3
        simp only [beq_iff_eq]
        exact hv

/-- Witness for C7: the single-root state with the pointer left-above the
root, whose default value collides (tree `[20, 10]` makes `fdiv (20+10) 2 = 15`
fine, so instead use the occupied-slot case on a tree with a left child). -/
theorem c7_preview_rejected_witness :
    findCloseNode
      [⟨0, 20, 100, 100, some 1, none⟩, ⟨1, 10, 300, 300, none, none⟩]
      60 160 40 100 =
      some (⟨0, 20, 100, 100, some 1, none⟩ : TreeNode)
    ∧ (handleMouseMove
        { nodes := [⟨0, 20, 100, 100, some 1, none⟩, ⟨1, 10, 300, 300, none, none⟩],
          nextId := 2, previewNode := none, previewLink := none,
          showRotationFor := none, animatedLinks := [], isAnimating := false,
          nodeAnimationComplete := false, sim := none } 60 160).previewNode = none := by
  have ha : findCloseNode
      [⟨0, 20, 100, 100, some 1, none⟩, ⟨1, 10, 300, 300, none, none⟩]
      60 160 40 100 = some (⟨0, 20, 100, 100, some 1, none⟩ : TreeNode) := by
    with_unfolding_all decide
  refine ⟨ha, ?_⟩
  exact (c7_preview_rejected
    { nodes := [⟨0, 20, 100, 100, some 1, none⟩, ⟨1, 10, 300, 300, none, none⟩],
      nextId := 2, previewNode := none, previewLink := none,
      showRotationFor := none, animatedLinks := [], isAnimating := false,
      nodeAnimationComplete := false, sim := none } 60 160 _ ha
    (Or.inl ⟨by norm_num, by norm_num⟩)).1

/-! ## C8: the default-value formula -/

/-- Claim C8: the code's default value agrees with the spec formula — for a
left insertion it is `floor((anchor+m)/2)` with `m` the maximum smaller value
when one exists and otherwise `floor(anchor·0.5)` (invalid when ≤ 0); the
right side is symmetric with the minimum larger value and fallback
`floor(anchor·1.5)`; and a lone root of value 20 previews a left child of
value 10. -/
theorem c8_default_value_formula :
    (∀ (ns : List TreeNode) (a : TreeNode),
        getDefaultChildNodeValue a true ns ≠ -1 →
        getDefaultChildNodeValue a true ns = specLeftValue a ns)
    ∧ (∀ (ns : List TreeNode) (a : TreeNode),
        (ns.map (·.value)).filter (fun v => decide (v < a.value)) = [] →
        Int.fdiv a.value 2 ≤ 0 →
        getDefaultChildNodeValue a true ns = -1)
    ∧ (∀ (ns : List TreeNode) (a : TreeNode),
        getDefaultChildNodeValue a false ns ≠ -1 →
        getDefaultChildNodeValue a false ns = specRightValue a ns)
    ∧ (handleMouseMove s20 60 160).previewNode = some ⟨20, 180, 10, 0, true, true⟩ := by
  refine ⟨?_, ?_, ?_, by with_unfolding_all decide⟩
  · intro ns a h
    unfold getDefaultChildNodeValue specLeftValue at *
    dsimp only at h ⊢
    rw [if_pos rfl] at h ⊢
    cases hsv : (ns.map (fun n => n.value)).filter (fun v => decide (v < a.value)) with
    | nil =>
      rw [hsv] at h
      dsimp only [List.max?] at h ⊢
      split_ifs at h ⊢ with h1
      · exact absurd rfl h
      · rfl
    | cons v0 rest =>
      rw [hsv] at h
      dsimp only [List.max?] at h ⊢
      split_ifs at h ⊢ with h1
      · exact absurd rfl h
      · rfl
  · intro ns a hf hle
    unfold getDefaultChildNodeValue
    dsimp only
    rw [if_pos rfl, hf]
    dsimp only
    rw [if_pos]
    simp [hle]
  · intro ns a h
    unfold getDefaultChildNodeValue specRightValue at *
    dsimp only at h ⊢
    rw [if_neg (by simp)] at h ⊢
    cases hsv : (ns.map (fun n => n.value)).filter (fun v => decide (a.value < v)) with
    | nil =>
      rw [hsv] at h
      dsimp only [List.min?] at h ⊢
      split_ifs at h ⊢ with h1
      · exact absurd rfl h
      · rfl
    | cons v0 rest =>
      rw [hsv] at h
      dsimp only [List.min?] at h ⊢
      split_ifs at h ⊢ with h1
      · exact absurd rfl h
      · rfl

/-- Witness for C8's universally quantified refinement parts at the
single-root-20 tree. -/
theorem c8_default_value_formula_witness :
    getDefaultChildNodeValue (⟨0, 20, 100, 100, none, none⟩ : TreeNode) true
      [⟨0, 20, 100, 100, none, none⟩] ≠ -1
    ∧ getDefaultChildNodeValue (⟨0, 20, 100, 100, none, none⟩ : TreeNode) true
        [⟨0, 20, 100, 100, none, none⟩] =
      specLeftValue (⟨0, 20, 100, 100, none, none⟩ : TreeNode)
        [⟨0, 20, 100, 100, none, none⟩] := by
  have h : getDefaultChildNodeValue (⟨0, 20, 100, 100, none, none⟩ : TreeNode) true
      [⟨0, 20, 100, 100, none, none⟩] ≠ -1 := by decide
  exact ⟨h, c8_default_value_formula.1 _ _ h⟩

/-! ## List toolkit -/

theorem getNode_mem {ns : List TreeNode} {i : Nat} {n : TreeNode}
    (h : getNode ns i = some n) : n ∈ ns ∧ n.id = i := by
  refine ⟨List.mem_of_find?_eq_some h, ?_⟩
  have := List.find?_some h
  simpa using this

theorem getNode_eq_some_of_mem {ns : List TreeNode} {n : TreeNode}
    (hmem : n ∈ ns) (hnd : NodupIds ns) : getNode ns n.id = some n := by
  induction ns with
  | nil => cases hmem
  | cons h tl ih =>
    rcases List.mem_cons.1 hmem with rfl | hmem'
    · simp [getNode]
    · have hne : h.id ≠ n.id := by
        intro he
        have : n.id ∈ tl.map (·.id) := List.mem_map_of_mem _ hmem'
        have hnotin : h.id ∉ tl.map (·.id) := (List.nodup_cons.1 hnd).1
        exact hnotin (he ▸ this)
      have hnd' : NodupIds tl := (List.nodup_cons.1 hnd).2
      simpa [getNode, List.find?_cons, hne] using ih hmem' hnd'

theorem getNode_append (ns ms : List TreeNode) (i : Nat) :
    getNode (ns ++ ms) i = (getNode ns i).or (getNode ms i) :=
  List.find?_append

theorem list_set_self {α : Type} {l : List α} {k : Nat} {v : α}
    (h : l[k]? = some v) : l.set k v = l := by
  induction l generalizing k with
  | nil => simp at h
  | cons a tl ih =>
    cases k with
    | zero => simp_all
    | succ k =>
      simp only [List.getElem?_cons_succ] at h
      simp [List.set_cons_succ, ih h]

theorem nodupIds_set {ns : List TreeNode} {k : Nat} {a b : TreeNode}
    (hk : ns[k]? = some a) (hid : b.id = a.id) (hnd : NodupIds ns) :
    NodupIds (ns.set k b) := by
  have hmap : (ns.set k b).map (·.id) = ns.map (·.id) := by
    rw [List.map_set]
    apply list_set_self
    rw [List.getElem?_map, hk]
    simp [hid]
  unfold NodupIds
  rw [hmap]
  exact hnd

theorem getNode_set {ns : List TreeNode} {k : Nat} {a b : TreeNode}
    (hk : ns[k]? = some a) (hid : b.id = a.id) (hnd : NodupIds ns) (i : Nat) :
    getNode (ns.set k b) i = if a.id = i then some b else getNode ns i := by
  induction ns generalizing k with
  | nil => simp at hk
  | cons h tl ih =>
    cases k with
    | zero =>
      simp only [List.getElem?_cons_zero, Option.some_inj] at hk
      subst hk
      by_cases he : h.id = i
      · simp [getNode, List.find?_cons, he, hid]
      · have hb : (b.id == i) = false := by simp [hid, he]
        have h2 : (h.id == i) = false := by simp [he]
        simp [getNode, List.find?_cons, hb, h2, he]
    | succ k =>
      simp only [List.getElem?_cons_succ] at hk
      have hnd' : NodupIds tl := (List.nodup_cons.1 hnd).2
      have hmem : a ∈ tl := by
        rcases List.getElem?_eq_some.1 hk with ⟨hlt, hget⟩
        exact hget ▸ List.getElem_mem hlt
      have hne : h.id ≠ a.id := by
        intro he
        have hin : a.id ∈ tl.map (·.id) := List.mem_map_of_mem _ hmem
        rw [← he] at hin
        exact (List.nodup_cons.1 hnd).1 hin
      by_cases he : a.id = i
      · have : (h.id == i) = false := by simp [he ▸ hne]
        simp [getNode, List.set_cons_succ, List.find?_cons, this, he] at *
        simpa [getNode, he] using ih hk hnd'
      · by_cases hh : h.id = i
        · simp [getNode, List.set_cons_succ, List.find?_cons, hh, he]
        · have h1 : (h.id == i) = false := by simp [hh]
          simp only [List.set_cons_succ, getNode, List.find?_cons, h1, if_neg he]
          simpa [getNode, he] using ih hk hnd'

theorem findIdx?_spec {α : Type} {l : List α} {p : α → Bool} {k : Nat}
    (h : l.findIdx? p = some k) : ∃ a, l[k]? = some a ∧ p a = true := by
  induction l generalizing k with
  | nil => simp [List.findIdx?_nil] at h
  | cons x tl ih =>
    rw [List.findIdx?_cons] at h
    by_cases hp : p x = true
    · rw [if_pos hp] at h
      cases h
      exact ⟨x, by simp, hp⟩
    · rw [if_neg hp] at h
      have : ∃ k', tl.findIdx? p = some k' ∧ k = k' + 1 := by
        cases htl : List.findIdx? p tl with
        | none =>
          exfalso
          have : (List.findIdx? p tl).map (· + 1) = some k := by
            simpa [List.findIdx?_succ] using h
          rw [htl] at this
          simp at this
        | some k' =>
          have : (List.findIdx? p tl).map (· + 1) = some k := by
            simpa [List.findIdx?_succ] using h
          rw [htl] at this
          simp at this
          exact ⟨k', rfl, this.symm⟩
      rcases this with ⟨k', hk', rfl⟩
      rcases ih hk' with ⟨a, ha, hpa⟩
      exact ⟨a, by simpa using ha, hpa⟩

theorem findIdx?_of_getElem {ns : List TreeNode} {k : Nat} {a : TreeNode}
    (hk : ns[k]? = some a) (hnd : NodupIds ns) :
    ns.findIdx? (fun n => n.id == a.id) = some k := by
  induction ns generalizing k with
  | nil => simp at hk
  | cons h tl ih =>
    cases k with
    | zero =>
      simp only [List.getElem?_cons_zero, Option.some_inj] at hk
      subst hk
      simp [List.findIdx?_cons]
    | succ k =>
      simp only [List.getElem?_cons_succ] at hk
      have hmem : a ∈ tl := by
        rcases List.getElem?_eq_some.1 hk with ⟨hlt, hget⟩
        exact hget ▸ List.getElem_mem hlt
      have hne : (h.id == a.id) = false := by
        simp only [beq_eq_false_iff_ne, ne_eq]
        intro he
        have hin : a.id ∈ tl.map (·.id) := List.mem_map_of_mem _ hmem
        rw [← he] at hin
        exact (List.nodup_cons.1 hnd).1 hin
      rw [List.findIdx?_cons, hne, if_neg (by simp), List.findIdx?_succ,
        ih hk (List.nodup_cons.1 hnd).2]
      rfl

theorem findIdx?_isSome_of_mem {α : Type} {l : List α} {p : α → Bool} {a : α}
    (hmem : a ∈ l) (hp : p a = true) : (l.findIdx? p).isSome := by
  induction l with
  | nil => cases hmem
  | cons h tl ih =>
    rw [List.findIdx?_cons]
    by_cases hph : p h = true
    · simp [hph]
    · rcases List.mem_cons.1 hmem with rfl | hmem'
      · exact absurd hp hph
      · rw [if_neg hph, List.findIdx?_succ]
        have := ih hmem'
        cases htl : tl.findIdx? p with
        | none => rw [htl] at this; simp at this
        | some k => simp [htl]

/-! ### Parent-scan lemmas -/

theorem findParentIdxAux_shift (nid : Nat) (ns : List TreeNode) (i : Nat) :
    findParentIdxAux nid ns i =
      (findParentIdxAux nid ns 0).map (fun p => (p.1 + i, p.2)) := by
  induction ns generalizing i with
  | nil => simp [findParentIdxAux]
  | cons h tl ih =>
    by_cases h1 : h.left == some nid
    · simp [findParentIdxAux, h1]
    · by_cases h2 : h.right == some nid
      · simp [findParentIdxAux, h1, h2]
      · rw [findParentIdxAux, if_neg (by simp_all), if_neg (by simp_all),
          findParentIdxAux, if_neg (by simp_all), if_neg (by simp_all),
          ih (i + 1), ih 1]
        cases findParentIdxAux nid tl 0 with
        | none => rfl
        | some p => simp; omega

theorem findParentIdx_none_iff (ns : List TreeNode) (nid : Nat) :
    findParentIdx ns nid = none ↔
      ∀ n ∈ ns, n.left ≠ some nid ∧ n.right ≠ some nid := by
  unfold findParentIdx
  induction ns with
  | nil => simp [findParentIdxAux]
  | cons h tl ih =>
    constructor
    · intro hn
      rw [findParentIdxAux] at hn
      by_cases h1 : h.left == some nid
      · rw [if_pos h1] at hn; cases hn
      · by_cases h2 : h.right == some nid
        · rw [if_neg h1, if_pos h2] at hn; cases hn
        · rw [if_neg h1, if_neg h2, findParentIdxAux_shift] at hn
          intro n hn'
          rcases List.mem_cons.1 hn' with rfl | hmem
          · exact ⟨by simpa using h1, by simpa using h2⟩
          · have : findParentIdxAux nid tl 0 = none := by
              cases he : findParentIdxAux nid tl 0 with
              | none => rfl
              | some p => rw [he] at hn; simp at hn
            exact (ih.1 this) n hmem
    · intro hall
      have hh := hall h (List.mem_cons_self h tl)
      rw [findParentIdxAux, if_neg (by simp [hh.1]), if_neg (by simp [hh.2]),
        findParentIdxAux_shift]
      have : findParentIdxAux nid tl 0 = none :=
        ih.2 (fun n hn => hall n (List.mem_cons_of_mem h hn))
      rw [this]
      rfl

theorem hasParentB_false_iff (ns : List TreeNode) (nid : Nat) :
    hasParentB ns nid = false ↔
      ∀ n ∈ ns, n.left ≠ some nid ∧ n.right ≠ some nid := by
  unfold hasParentB
  rw [← Bool.not_eq_true, List.any_eq_true]
  push_neg
  constructor
  · intro h n hn
    have h2 := h n hn
    rw [ne_eq, Bool.or_eq_true] at h2
    push_neg at h2
    simpa using h2
  · intro h n hn
    have h2 := h n hn
    rw [ne_eq, Bool.or_eq_true]
    push_neg
    simpa using h2

theorem findParentIdx_spec {ns : List TreeNode} {nid : Nat} {k : Nat} {b : Bool}
    (h : findParentIdx ns nid = some (k, b)) :
    ∃ p, ns[k]? = some p ∧
      ((b = true ∧ p.left = some nid) ∨
       (b = false ∧ p.right = some nid ∧ p.left ≠ some nid)) := by
  unfold findParentIdx at h
  induction ns generalizing k with
  | nil => simp [findParentIdxAux] at h
  | cons hd tl ih =>
    rw [findParentIdxAux] at h
    by_cases h1 : hd.left == some nid
    · rw [if_pos h1] at h
      cases h
      exact ⟨hd, by simp, Or.inl ⟨rfl, by simpa using h1⟩⟩
    · by_cases h2 : hd.right == some nid
      · rw [if_neg h1, if_pos h2] at h
        cases h
        refine ⟨hd, by simp, Or.inr ⟨rfl, by simpa using h2, ?_⟩⟩
        simpa using h1
      · rw [if_neg h1, if_neg h2, findParentIdxAux_shift] at h
        cases he : findParentIdxAux nid tl 0 with
        | none => rw [he] at h; simp at h
        | some pr =>
          rw [he] at h
          simp only [Option.map_some'] at h
          cases h
          rcases ih (by rw [he]) with ⟨p, hp, hcase⟩
          exact ⟨p, by simpa using hp, hcase⟩

theorem childRefs_cons (n : TreeNode) (ns : List TreeNode) :
    childRefs (n :: ns) = n.left.toList ++ (n.right.toList ++ childRefs ns) := rfl

theorem mem_childRefs {ns : List TreeNode} {i : Nat} :
    i ∈ childRefs ns ↔ ∃ n ∈ ns, n.left = some i ∨ n.right = some i := by
  induction ns with
  | nil => simp [childRefs]
  | cons h tl ih =>
    rw [childRefs_cons]
    simp only [List.mem_append, Option.mem_toList, Option.mem_def, ih]
    constructor
    · rintro (hl | hr | ⟨n, hn, hc⟩)
      · exact ⟨h, List.mem_cons_self h tl, Or.inl hl⟩
      · exact ⟨h, List.mem_cons_self h tl, Or.inr hr⟩
      · exact ⟨n, List.mem_cons_of_mem h hn, hc⟩
    · rintro ⟨n, hn, hc⟩
      rcases List.mem_cons.1 hn with rfl | hmem
      · rcases hc with hl | hr
        · exact Or.inl hl
        · exact Or.inr (Or.inl hr)
      · exact Or.inr (Or.inr ⟨n, hmem, hc⟩)

theorem uniqueParent_cons {h : TreeNode} {tl : List TreeNode}
    (hup : UniqueParent (h :: tl)) : UniqueParent tl := by
  unfold UniqueParent at *
  rw [childRefs_cons] at hup
  exact ((hup.of_append_right).of_append_right)

/-- Under `UniqueParent`, the entry holding the unique slot that points at
`nid` is the node returned by the parent scan. -/
theorem findParentIdx_unique {ns : List TreeNode} {k : Nat} {p : TreeNode} {nid : Nat}
    (hk : ns[k]? = some p) (hup : UniqueParent ns) :
    (p.left = some nid → findParentIdx ns nid = some (k, true))
    ∧ (p.right = some nid → p.left ≠ some nid →
        findParentIdx ns nid = some (k, false)) := by
  unfold findParentIdx
  induction ns generalizing k with
  | nil => simp at hk
  | cons h tl ih =>
    cases k with
    | zero =>
      simp only [List.getElem?_cons_zero, Option.some_inj] at hk
      subst hk
      constructor
      · intro hl
        rw [findParentIdxAux, if_pos (by simp [hl])]
      · intro hr hl
        rw [findParentIdxAux, if_neg (by simpa using hl), if_pos (by simp [hr])]
    | succ k =>
      simp only [List.getElem?_cons_succ] at hk
      have hmem : p ∈ tl := by
        rcases List.getElem?_eq_some.1 hk with ⟨hlt, hget⟩
        exact hget ▸ List.getElem_mem hlt
      have hup' : UniqueParent tl := uniqueParent_cons hup
      have hnodup : (h.left.toList ++ (h.right.toList ++ childRefs tl)).Nodup := hup
      constructor
      · intro hl
        have hin : nid ∈ childRefs tl := mem_childRefs.2 ⟨p, hmem, Or.inl hl⟩
        have hhl : h.left ≠ some nid := by
          intro he
          have h1 : nid ∈ h.left.toList := by simp [he]
          have := (List.disjoint_of_nodup_append hnodup) h1
          simp only [List.mem_append] at this
          exact this (Or.inr hin)
        have hhr : h.right ≠ some nid := by
          intro he
          have h1 : nid ∈ h.right.toList := by simp [he]
          have h2 := hnodup.of_append_right
          have := (List.disjoint_of_nodup_append h2) h1
          exact this hin
        rw [findParentIdxAux, if_neg (by simpa using hhl), if_neg (by simpa using hhr),
          findParentIdxAux_shift, (ih hk hup').1 hl]
        rfl
      · intro hr hl
        have hin : nid ∈ childRefs tl := mem_childRefs.2 ⟨p, hmem, Or.inr hr⟩
        have hhl : h.left ≠ some nid := by
          intro he
          have h1 : nid ∈ h.left.toList := by simp [he]
          have := (List.disjoint_of_nodup_append hnodup) h1
          simp only [List.mem_append] at this
          exact this (Or.inr hin)
        have hhr : h.right ≠ some nid := by
          intro he
          have h1 : nid ∈ h.right.toList := by simp [he]
          have h2 := hnodup.of_append_right
          have := (List.disjoint_of_nodup_append h2) h1
          exact this hin
        rw [findParentIdxAux, if_neg (by simpa using hhl), if_neg (by simpa using hhr),
          findParentIdxAux_shift, (ih hk hup').2 hr hl]
        rfl

/-- Looking up an id other than the filtered-out one is unaffected by the
deletion filter. -/
theorem getNode_filter_ne {ns : List TreeNode} {nid i : Nat} (hne : i ≠ nid) :
    getNode (ns.filter (fun m => !(m.id == nid))) i = getNode ns i := by
  induction ns with
  | nil => rfl
  | cons h tl ih =>
    by_cases hd : h.id = nid
    · have : (!(h.id == nid)) = false := by simp [hd]
      have hni : (h.id == i) = false := by simp [hd, Ne.symm hne]
      rw [List.filter_cons, if_neg (by simp [this])]
      rw [ih]
      show getNode tl i = getNode (h :: tl) i
      rw [getNode, getNode, List.find?_cons, hni]
    · have hkeep : (!(h.id == nid)) = true := by simp [hd]
      rw [List.filter_cons, if_pos hkeep]
      by_cases hi : h.id = i
      · simp [getNode, List.find?_cons, hi]
      · have : (h.id == i) = false := by simp [hi]
        rw [getNode, List.find?_cons, this, getNode, List.find?_cons, this]
        exact ih

theorem getNode_filter_self (ns : List TreeNode) (nid : Nat) :
    getNode (ns.filter (fun m => !(m.id == nid))) nid = none := by
  rw [getNode, List.find?_eq_none]
  intro m hm
  have := List.of_mem_filter hm
  simp only [Bool.not_eq_true', beq_eq_false_iff_ne, ne_eq] at this
  simp [this]

theorem filter_length_of_unique {ns : List TreeNode} {v : TreeNode}
    (hnd : NodupIds ns) (hmem : v ∈ ns) :
    (ns.filter (fun m => !(m.id == v.id))).length + 1 = ns.length := by
  induction ns with
  | nil => cases hmem
  | cons h tl ih =>
    rcases List.mem_cons.1 hmem with rfl | hmem'
    · rw [List.filter_cons, if_neg (by simp)]
      have : tl.filter (fun m => !(m.id == v.id)) = tl := by
        rw [List.filter_eq_self]
        intro a ha
        have : v.id ∉ tl.map (·.id) := (List.nodup_cons.1 hnd).1
        simp only [Bool.not_eq_true', beq_eq_false_iff_ne, ne_eq]
        intro he
        exact this (he ▸ List.mem_map_of_mem _ ha)
      rw [this]
      simp
    · have hne : h.id ≠ v.id := by
        intro he
        have hin : v.id ∈ tl.map (·.id) := List.mem_map_of_mem _ hmem'
        rw [← he] at hin
        exact (List.nodup_cons.1 hnd).1 hin
      rw [List.filter_cons, if_pos (by simp [hne])]
      simp only [List.length_cons]
      rw [← ih (List.nodup_cons.1 hnd).2 hmem']

theorem getElem?_mem {α : Type} {l : List α} {k : Nat} {a : α}
    (h : l[k]? = some a) : a ∈ l := by
  rcases List.getElem?_eq_some.1 h with ⟨hlt, hget⟩
  exact hget ▸ List.getElem_mem hlt

theorem mem_unique_of_id {ns : List TreeNode} {m p : TreeNode}
    (hnd : NodupIds ns) (hm : m ∈ ns) (hp : p ∈ ns) (hid : m.id = p.id) :
    m = p := by
  have h1 := getNode_eq_some_of_mem hm hnd
  have h2 := getNode_eq_some_of_mem hp hnd
  rw [hid] at h1
  rw [h1] at h2
  exact Option.some_inj.1 h2

theorem uniqueParent_slots {ns : List TreeNode} {p : TreeNode} {nid : Nat}
    (hup : UniqueParent ns) (hp : p ∈ ns) :
    ¬(p.left = some nid ∧ p.right = some nid) := by
  rintro ⟨hl, hr⟩
  induction ns with
  | nil => cases hp
  | cons h tl ih =>
    have hnodup : (h.left.toList ++ (h.right.toList ++ childRefs tl)).Nodup := hup
    rcases List.mem_cons.1 hp with rfl | hmem
    · have h1 : nid ∈ p.left.toList := by simp [hl]
      have h2 : nid ∈ p.right.toList ++ childRefs tl := by simp [hr]
      exact (List.disjoint_of_nodup_append hnodup) h1 h2
    · exact ih (uniqueParent_cons hup) hmem

theorem uniqueParent_other_slots {ns : List TreeNode} {p m : TreeNode} {nid : Nat}
    (hup : UniqueParent ns) (hp : p ∈ ns) (hslot : p.left = some nid ∨ p.right = some nid)
    (hm : m ∈ ns) (hne : m ≠ p) :
    m.left ≠ some nid ∧ m.right ≠ some nid := by
  induction ns with
  | nil => cases hp
  | cons h tl ih =>
    have hnodup : (h.left.toList ++ (h.right.toList ++ childRefs tl)).Nodup := hup
    have hdisj1 := List.disjoint_of_nodup_append hnodup
    have hdisj2 := List.disjoint_of_nodup_append hnodup.of_append_right
    rcases List.mem_cons.1 hp with rfl | hpmem
    · rcases List.mem_cons.1 hm with rfl | hmmem
      · exact absurd rfl hne
      · constructor
        · intro he
          have h2 : nid ∈ childRefs tl := mem_childRefs.2 ⟨m, hmmem, Or.inl he⟩
          rcases hslot with hl | hr
          · exact hdisj1 (by simp [hl]) (List.mem_append.2 (Or.inr h2))
          · exact hdisj2 (by simp [hr]) h2
        · intro he
          have h2 : nid ∈ childRefs tl := mem_childRefs.2 ⟨m, hmmem, Or.inr he⟩
          rcases hslot with hl | hr
          · exact hdisj1 (by simp [hl]) (List.mem_append.2 (Or.inr h2))
          · exact hdisj2 (by simp [hr]) h2
    · rcases List.mem_cons.1 hm with rfl | hmmem
      · have h2 : nid ∈ childRefs tl := by
          rcases hslot with hl | hr
          · exact mem_childRefs.2 ⟨p, hpmem, Or.inl hl⟩
          · exact mem_childRefs.2 ⟨p, hpmem, Or.inr hr⟩
        constructor
        · intro he
          exact hdisj1 (by simp [he]) (List.mem_append.2 (Or.inr h2))
        · intro he
          exact hdisj2 (by simp [he]) h2
      · exact ih (uniqueParent_cons hup) hpmem hmmem

/-- Behaviour of the node-collection update of a committed leaf deletion. -/
theorem deleteLeafFromNodes_spec (ns : List TreeNode) (n : TreeNode) (nid : Nat)
    (hget : getNode ns nid = some n) (hnd : NodupIds ns) (hup : UniqueParent ns) :
    (deleteLeafFromNodes ns nid).length + 1 = ns.length
    ∧ getNode (deleteLeafFromNodes ns nid) nid = none
    ∧ ∀ m ∈ ns, m.id ≠ nid →
        getNode (deleteLeafFromNodes ns nid) m.id =
          some { m with left := if m.left == some nid then none else m.left,
                        right := if m.right == some nid then none else m.right } := by
  obtain ⟨hnmem, hnid⟩ := getNode_mem hget
  unfold deleteLeafFromNodes deepCopyNodes
  dsimp only
  cases hp : findParentIdx ns nid with
  | none =>
    dsimp only
    have hnone := (findParentIdx_none_iff ns nid).1 hp
    refine ⟨?_, getNode_filter_self ns nid, ?_⟩
    · exact hnid ▸ filter_length_of_unique hnd hnmem
    · intro m hm hmne
      rw [getNode_filter_ne hmne, getNode_eq_some_of_mem hm hnd]
      have := hnone m hm
      congr 1
      cases m
      simp_all
  | some pr =>
    obtain ⟨pIdx, isL⟩ := pr
    rcases findParentIdx_spec hp with ⟨p, hpElem, hpcase⟩
    have hpmem : p ∈ ns := getElem?_mem hpElem
    have hslot : p.left = some nid ∨ p.right = some nid := by
      rcases hpcase with ⟨_, hl⟩ | ⟨_, hr, _⟩
      · exact Or.inl hl
      · exact Or.inr hr
    dsimp only
    rw [hpElem]
    dsimp only
    set p' : TreeNode :=
      (if isL = true then { p with left := none } else { p with right := none }) with hp'
    have hp'id : p'.id = p.id := by
      rw [hp']
      cases isL <;> simp
    have hnd1 : NodupIds (ns.set pIdx p') := nodupIds_set hpElem hp'id hnd
    have hset := getNode_set hpElem hp'id hnd
    refine ⟨?_, getNode_filter_self _ nid, ?_⟩
    · have hex : ∃ v ∈ ns.set pIdx p', v.id = nid := by
        by_cases hpn : p.id = nid
        · refine ⟨p', ?_, by rw [hp'id, hpn]⟩
          have := hset nid
          rw [if_pos hpn] at this
          exact (getNode_mem this).1
        · refine ⟨n, ?_, hnid⟩
          have := hset nid
          rw [if_neg hpn, hget] at this
          exact (getNode_mem this).1
      rcases hex with ⟨v, hv, hvid⟩
      have hflen := filter_length_of_unique hnd1 hv
      rw [hvid] at hflen
      rw [hflen, List.length_set]
    · intro m hm hmne
      rw [getNode_filter_ne hmne, hset m.id]
      by_cases hpm : p.id = m.id
      · have hmp : m = p := mem_unique_of_id hnd hm hpmem hpm.symm
        subst hmp
        rw [if_pos rfl]
        rcases hpcase with ⟨hb, hl⟩ | ⟨hb, hr, hnl⟩
        · have hnr : m.right ≠ some nid := by
            intro hr
            exact uniqueParent_slots hup hpmem ⟨hl, hr⟩
          subst hb
          rw [hp']
          congr 1
          cases m
          simp_all
        · subst hb
          rw [hp']
          congr 1
          cases m
          simp_all
      · rw [if_neg hpm, getNode_eq_some_of_mem hm hnd]
        have hmnep : m ≠ p := fun he => hpm (by rw [he])
        have := uniqueParent_other_slots hup hpmem hslot hm hmnep
        congr 1
        cases m
        simp_all

/-- Claim C9: a secondary click on a node with any child leaves the state
(and therefore the collection's membership, relations, values and positions)
entirely unchanged; on a true leaf it removes exactly that node and clears
the unique parent's reference to it, leaving every other node untouched. -/
theorem c9_delete_leaf (s : AppState) (nid : Nat) (n : TreeNode)
    (hget : getNode s.nodes nid = some n) :
    ((n.left.isSome || n.right.isSome) = true → appStep s (.contextMenu nid) = s)
    ∧ (n.left = none → n.right = none → NodupIds s.nodes → UniqueParent s.nodes →
        (appStep s (.contextMenu nid)).nodes.length + 1 = s.nodes.length
        ∧ getNode (appStep s (.contextMenu nid)).nodes nid = none
        ∧ ∀ m ∈ s.nodes, m.id ≠ nid →
            getNode (appStep s (.contextMenu nid)).nodes m.id =
              some { m with left := if m.left == some nid then none else m.left,
                            right := if m.right == some nid then none else m.right }) := by
  constructor
  · intro hguard
    show handleContextMenu s nid = s
    unfold handleContextMenu
    rw [hget]
    dsimp only
    rw [if_pos hguard]
  · intro hl hr hnd hup
    have hnodes : (appStep s (.contextMenu nid)).nodes = deleteLeafFromNodes s.nodes nid := by
      show (handleContextMenu s nid).nodes = _
      unfold handleContextMenu
      rw [hget]
      dsimp only
      rw [if_neg (by simp [hl, hr])]
    rw [hnodes]
    exact deleteLeafFromNodes_spec s.nodes n nid hget hnd hup

/-- Witness for C9 at the two-node tree root 20 / left leaf 10: both the
non-leaf no-op branch (on the root) and the committed deletion (on the leaf). -/
theorem c9_delete_leaf_witness :
    getNode
      [⟨0, 20, 100, 100, some 1, none⟩, ⟨1, 10, 20, 180, none, none⟩] 1 =
      some (⟨1, 10, 20, 180, none, none⟩ : TreeNode)
    ∧ (appStep
        { nodes := [⟨0, 20, 100, 100, some 1, none⟩, ⟨1, 10, 20, 180, none, none⟩],
          nextId := 2, previewNode := none, previewLink := none,
          showRotationFor := none, animatedLinks := [], isAnimating := false,
          nodeAnimationComplete := false, sim := none } (.contextMenu 1)).nodes.length + 1
      = 2 := by
  have hget : getNode
      [⟨0, 20, 100, 100, some 1, none⟩, ⟨1, 10, 20, 180, none, none⟩] 1 =
      some (⟨1, 10, 20, 180, none, none⟩ : TreeNode) := by decide
  refine ⟨hget, ?_⟩
  have := ((c9_delete_leaf
    { nodes := [⟨0, 20, 100, 100, some 1, none⟩, ⟨1, 10, 20, 180, none, none⟩],
      nextId := 2, previewNode := none, previewLink := none,
      showRotationFor := none, animatedLinks := [], isAnimating := false,
      nodeAnimationComplete := false, sim := none } 1 _ hget).2
    rfl rfl (by unfold NodupIds; decide) (by unfold UniqueParent; decide)).1
  simpa using this

/-! ## C10: parent-insertion commit and the grandparent branch -/

/-- What a live preview certifies about the state it was computed from. -/
theorem foldl_option_mem {α β : Type} (f : (Option α × β) → α → (Option α × β))
    (hf : ∀ acc n, (f acc n).1 = acc.1 ∨ (f acc n).1 = some n) :
    ∀ (l : List α) (init : Option α × β) (a : α),
      (l.foldl f init).1 = some a → init.1 = some a ∨ a ∈ l := by
  intro l
  induction l with
  | nil => intro init a h; exact Or.inl h
  | cons hd tl ih =>
    intro init a h
    rw [List.foldl_cons] at h
    rcases ih (f init hd) a h with hinit | hmem
    · rcases hf init hd with he | he
      · rw [he] at hinit
        exact Or.inl hinit
      · rw [he] at hinit
        have : hd = a := Option.some_inj.1 hinit
        subst this
        exact Or.inr (List.mem_cons_self hd tl)
    · exact Or.inr (List.mem_cons_of_mem _ hmem)

theorem findCloseNode_mem {ns : List TreeNode} {x y mn mx : ℚ} {a : TreeNode}
    (h : findCloseNode ns x y mn mx = some a) : a ∈ ns := by
  unfold findCloseNode at h
  have := foldl_option_mem _ ?_ ns ((none : Option TreeNode), mx * mx) a h
  · rcases this with hinit | hmem
    · cases hinit
    · exact hmem
  · intro acc n
    dsimp only
    split_ifs
    · exact Or.inr rfl
    · exact Or.inl rfl

/-- What a live preview certifies about the state it was computed from. -/
theorem handleMouseMove_previewNode_spec (s : AppState) (x y : ℚ) (pv : PreviewNode)
    (hpv : (handleMouseMove s x y).previewNode = some pv) :
    ∃ a, findCloseNode s.nodes x y 40 100 = some a ∧
      pv.parentId = a.id ∧
      pv.isLeft = decide (x - a.x < 0) ∧ pv.isChild = decide (0 < y - a.y) ∧
      pv.value = getDefaultChildNodeValue a pv.isLeft s.nodes ∧
      pv.value ≠ -1 ∧
      (pv.isChild = true →
        (pv.isLeft = true → a.left = none) ∧ (pv.isLeft = false → a.right = none)) ∧
      (pv.isChild = false → hasParentB s.nodes a.id = false) := by
  unfold handleMouseMove at hpv
  cases hrot : findCloseNode s.nodes x y 0 40 with
  | some n => rw [hrot] at hpv; simp at hpv
  | none =>
    rw [hrot] at hpv
    cases ha : findCloseNode s.nodes x y 40 100 with
    | none => rw [ha] at hpv; simp at hpv
    | some a =>
      rw [ha] at hpv
      dsimp only at hpv
      refine ⟨a, rfl, ?_⟩
      by_cases h1 : (decide (0 < y - a.y) &&
          (decide (x - a.x < 0) && a.left.isSome
           || !decide (x - a.x < 0) && a.right.isSome)) = true
      · rw [if_pos h1] at hpv; simp at hpv
      · rw [if_neg h1] at hpv
        by_cases h2 : (!decide (0 < y - a.y) && hasParentB s.nodes a.id) = true
        · rw [if_pos h2] at hpv; simp at hpv
        · rw [if_neg h2] at hpv
          by_cases h3 :
              (getDefaultChildNodeValue a (decide (x - a.x < 0)) s.nodes == -1) = true
          · rw [if_pos h3] at hpv; simp at hpv
          · rw [if_neg h3] at hpv
            simp only [Option.some_inj] at hpv
            subst hpv
            dsimp only
            refine ⟨rfl, rfl, rfl, rfl, by simpa using h3, ?_, ?_⟩
            · intro hchild
              rw [hchild, Bool.true_and] at h1
              constructor
              · intro hleftT
                rw [hleftT, Bool.true_and, Bool.not_true, Bool.false_and,
                  Bool.or_false] at h1
                cases hcase : a.left with
                | none => rfl
                | some v => rw [hcase] at h1; simp at h1
              · intro hleftF
                rw [hleftF, Bool.false_and, Bool.not_false, Bool.true_and,
                  Bool.false_or] at h1
                cases hcase : a.right with
                | none => rfl
                | some v => rw [hcase] at h1; simp at h1
            · intro hchild
              rw [hchild, Bool.not_false, Bool.true_and] at h2
              simpa using h2

theorem handleMouseMove_nodes (s : AppState) (x y : ℚ) :
    (handleMouseMove s x y).nodes = s.nodes := by
  unfold handleMouseMove
  cases findCloseNode s.nodes x y 0 40 with
  | some n => rfl
  | none =>
    cases findCloseNode s.nodes x y 40 100 with
    | none => rfl
    | some a =>
      dsimp only
      split_ifs <;> rfl

theorem handleMouseMove_nextId (s : AppState) (x y : ℚ) :
    (handleMouseMove s x y).nextId = s.nextId := by
  unfold handleMouseMove
  cases findCloseNode s.nodes x y 0 40 with
  | some n => rfl
  | none =>
    cases findCloseNode s.nodes x y 40 100 with
    | none => rfl
    | some a =>
      dsimp only
      split_ifs <;> rfl

set_option maxRecDepth 40000 in
/-- Counterexample to C10 as stated: from `s10`, a left rotation on the root
is accepted, a parent-insertion preview for the root is created while the
nodes are still moving, the rotation commits (giving the root a parent), and
the preview is still live; the ensuing click finds the anchor parented and
executes the grandparent-rewiring branch, repointing node 1's left reference
to the new node 2. -/
theorem c10_counterexample :
    (runEvents s10 c10events).previewNode = some ⟨20, 20, 10, 0, true, false⟩
    ∧ hasParentB (runEvents s10 c10events).nodes 0 = true
    ∧ (getNode (appStep (runEvents s10 c10events) (.click 0 0 0)).nodes 1).map (·.left)
        = some (some 2) := by
  with_unfolding_all decide

/-- Claim C10 as amended: for a parent-insertion committed from a live
preview with no state change between the pointer move that produced the
preview and the click, the anchor has no parent at commit time, and the
commit appends the new node without repointing any grandparent reference —
the resulting collection is exactly the old one plus the new parent node. -/
theorem c10_parent_insert_no_grandparent (s : AppState) (x y cx cy : ℚ) (r : Nat)
    (pv : PreviewNode)
    (hpv : (handleMouseMove s x y).previewNode = some pv)
    (hrole : pv.isChild = false) :
    findParentIdx s.nodes pv.parentId = none
    ∧ (appStep (handleMouseMove s x y) (.click cx cy r)).nodes =
        s.nodes ++ [{ id := s.nextId, value := pv.value, x := pv.x, y := pv.y,
                      left := if pv.isLeft then none else some pv.parentId,
                      right := if pv.isLeft then some pv.parentId else none }] := by
  rcases handleMouseMove_previewNode_spec s x y pv hpv with
    ⟨a, hfind, hpid, hleft, hchild, hval, hsent, hoccs, hpar⟩
  have hnopar : hasParentB s.nodes a.id = false := hpar hrole
  have hnone : findParentIdx s.nodes a.id = none :=
    (findParentIdx_none_iff s.nodes a.id).2 ((hasParentB_false_iff s.nodes a.id).1 hnopar)
  refine ⟨hpid ▸ hnone, ?_⟩
  show (handleClick (handleMouseMove s x y) cx cy r).nodes = _
  unfold handleClick
  rw [hpv]
  dsimp only
  rw [handleMouseMove_nodes, handleMouseMove_nextId]
  cases hidx : s.nodes.findIdx? (fun n => n.id == pv.parentId) with
  | none =>
    exfalso
    have hamem : a ∈ s.nodes := findCloseNode_mem hfind
    have hsome := findIdx?_isSome_of_mem (p := fun n => n.id == pv.parentId) hamem
      (by simp [hpid])
    rw [hidx] at hsome
    simp at hsome
  | some parentIdx =>
    rcases findIdx?_spec hidx with ⟨pn, hpn, hpnp⟩
    dsimp only
    rw [hpn]
    dsimp only
    rw [if_neg (by simp [hrole])]
    rw [hpid, hnone]
    dsimp only
    cases hL : pv.isLeft <;> simp [hL]

/-- Witness for the amended C10 at the lone root 20 with the pointer
left-above: the committed parent insertion appends node 1 (value 10) with the
root as its right child and touches nothing else. -/
theorem c10_parent_insert_no_grandparent_witness :
    (handleMouseMove s20 60 40).previewNode = some ⟨20, 20, 10, 0, true, false⟩
    ∧ (appStep (handleMouseMove s20 60 40) (.click 0 0 0)).nodes =
        s20.nodes ++ [⟨1, 10, 20, 20, none, some 0⟩] := by
  have hpv : (handleMouseMove s20 60 40).previewNode =
      some ⟨20, 20, 10, 0, true, false⟩ := by
    with_unfolding_all decide
  refine ⟨hpv, ?_⟩
  have h := (c10_parent_insert_no_grandparent s20 60 40 0 0 0 _ hpv rfl).2
  simpa using h

/-! ## C1: BST edge ordering after committed inserts -/

theorem bstEdgesOK_iff (ns : List TreeNode) :
    bstEdgesOK ns = true ↔
      ∀ n ∈ ns,
        (∀ i c, n.left = some i → getNode ns i = some c → c.value < n.value)
        ∧ (∀ i c, n.right = some i → getNode ns i = some c → n.value < c.value) := by
  unfold bstEdgesOK
  rw [List.all_eq_true]
  constructor
  · intro h n hn
    have hb := h n hn
    rw [Bool.and_eq_true] at hb
    obtain ⟨hL, hR⟩ := hb
    constructor
    · intro i c hi hc
      rw [hi] at hL
      dsimp only at hL
      rw [hc] at hL
      simpa using hL
    · intro i c hi hc
      rw [hi] at hR
      dsimp only at hR
      rw [hc] at hR
      simpa using hR
  · intro h n hn
    rw [Bool.and_eq_true]
    constructor
    · cases hi : n.left with
      | none => rfl
      | some i =>
        dsimp only
        cases hc : getNode ns i with
        | none => rfl
        | some c => simpa using (h n hn).1 i c hi hc
    · cases hi : n.right with
      | none => rfl
      | some i =>
        dsimp only
        cases hc : getNode ns i with
        | none => rfl
        | some c => simpa using (h n hn).2 i c hi hc

theorem foldl_max_lt {c : ℤ} :
    ∀ (l : List ℤ) (v : ℤ), v < c → (∀ u ∈ l, u < c) → l.foldl max v < c := by
  intro l
  induction l with
  | nil => intro v hv _; exact hv
  | cons h tl ih =>
    intro v hv hall
    rw [List.foldl_cons]
    exact ih (max v h) (max_lt hv (hall h (List.mem_cons_self h tl)))
      (fun u hu => hall u (List.mem_cons_of_mem h hu))

theorem le_foldl_min {c : ℤ} :
    ∀ (l : List ℤ) (v : ℤ), c ≤ v → (∀ u ∈ l, c ≤ u) → c ≤ l.foldl min v := by
  intro l
  induction l with
  | nil => intro v hv _; exact hv
  | cons h tl ih =>
    intro v hv hall
    rw [List.foldl_cons]
    exact ih (min v h) (le_min hv (hall h (List.mem_cons_self h tl)))
      (fun u hu => hall u (List.mem_cons_of_mem h hu))

theorem int_two_mul_sub_one_ediv : ∀ a : ℤ, (2 * a - 1) / 2 = a - 1 := by
  intro a
  have h : 2 * a - 1 = 1 + (a - 1) * 2 := by ring
  rw [h, Int.add_mul_ediv_right 1 (a - 1) (by norm_num)]
  norm_num

theorem int_two_mul_add_one_ediv : ∀ a : ℤ, (2 * a + 1) / 2 = a := by
  intro a
  have h : 2 * a + 1 = 1 + a * 2 := by ring
  rw [h, Int.add_mul_ediv_right 1 a (by norm_num)]
  norm_num

/-- Membership form of `List.contains` on integers. -/
theorem int_contains_iff (l : List ℤ) (v : ℤ) : l.contains v = true ↔ v ∈ l := by
  show l.elem v = true ↔ v ∈ l
  exact List.elem_iff

/-- If the computed left default value is valid it lies strictly below the
anchor's value. -/
theorem getDefault_left_lt (a : TreeNode) (ns : List TreeNode)
    (hv : getDefaultChildNodeValue a true ns ≠ -1) :
    getDefaultChildNodeValue a true ns < a.value := by
  unfold getDefaultChildNodeValue at *
  dsimp only at hv ⊢
  rw [if_pos rfl] at hv ⊢
  cases hsv : (ns.map (fun n => n.value)).filter (fun v => decide (v < a.value)) with
  | nil =>
    rw [hsv] at hv
    dsimp only at hv ⊢
    split_ifs at hv ⊢ with h1
    · exact absurd rfl hv
    · simp only [Bool.or_eq_true, not_or, decide_eq_true_eq] at h1
      have hpos : 0 < Int.fdiv a.value 2 := by
        rcases h1 with ⟨h1a, h2⟩
        omega
      rw [Int.fdiv_eq_ediv _ (by norm_num)] at hpos ⊢
      have h2 : (2 : ℤ) ≤ a.value := by
        have := (Int.le_ediv_iff_mul_le (by norm_num : (0:ℤ) < 2)).1 hpos
        omega
      rw [Int.ediv_lt_iff_lt_mul (by norm_num : (0:ℤ) < 2)]
      omega
  | cons v0 rest =>
    rw [hsv] at hv
    dsimp only at hv ⊢
    split_ifs at hv ⊢ with h1
    · exact absurd rfl hv
    · have hall : ∀ u ∈ v0 :: rest, u < a.value := by
        intro u hu
        rw [← hsv] at hu
        have := List.of_mem_filter hu
        simpa using this
      have hmax : rest.foldl max v0 < a.value :=
        foldl_max_lt rest v0 (hall v0 (List.mem_cons_self v0 rest))
          (fun u hu => hall u (List.mem_cons_of_mem v0 hu))
      rw [Int.fdiv_eq_ediv _ (by norm_num)]
      calc (a.value + rest.foldl max v0) / 2
          ≤ (2 * a.value - 1) / 2 :=
            Int.ediv_le_ediv (by norm_num) (by omega)
        _ = a.value - 1 := int_two_mul_sub_one_ediv a.value
        _ < a.value := by omega

/-- If the computed right default value is valid and all values are
non-negative, it lies strictly above the anchor's value. -/
theorem getDefault_right_gt (a : TreeNode) (ns : List TreeNode)
    (ha : a ∈ ns) (hnn : ∀ n ∈ ns, 0 ≤ n.value)
    (hv : getDefaultChildNodeValue a false ns ≠ -1) :
    a.value < getDefaultChildNodeValue a false ns := by
  have hmemv : a.value ∈ ns.map (fun n => n.value) := List.mem_map_of_mem _ ha
  unfold getDefaultChildNodeValue at *
  dsimp only at hv ⊢
  rw [if_neg (by simp)] at hv ⊢
  cases hsv : (ns.map (fun n => n.value)).filter (fun v => decide (a.value < v)) with
  | nil =>
    rw [hsv] at hv
    dsimp only at hv ⊢
    split_ifs at hv ⊢ with h1
    · exact absurd rfl hv
    · have hnotmem : Int.fdiv (3 * a.value) 2 ∉ ns.map (fun n => n.value) := by
        intro hmem
        exact h1 ((int_contains_iff _ _).2 hmem)
      have hge : a.value ≤ Int.fdiv (3 * a.value) 2 := by
        rw [Int.fdiv_eq_ediv _ (by norm_num)]
        have h0 : 0 ≤ a.value := hnn a ha
        calc a.value = 2 * a.value / 2 := by omega
          _ ≤ 3 * a.value / 2 := Int.ediv_le_ediv (by norm_num) (by omega)
      have hne : Int.fdiv (3 * a.value) 2 ≠ a.value := by
        intro he
        rw [he] at hnotmem
        exact hnotmem hmemv
      omega
  | cons v0 rest =>
    rw [hsv] at hv
    dsimp only at hv ⊢
    split_ifs at hv ⊢ with h1
    · exact absurd rfl hv
    · have hall : ∀ u ∈ v0 :: rest, a.value + 1 ≤ u := by
        intro u hu
        rw [← hsv] at hu
        have := List.of_mem_filter hu
        simp only [decide_eq_true_eq] at this
        omega
      have hmin : a.value + 1 ≤ rest.foldl min v0 :=
        le_foldl_min rest v0 (hall v0 (List.mem_cons_self v0 rest))
          (fun u hu => hall u (List.mem_cons_of_mem v0 hu))
      have hnotmem : Int.fdiv (a.value + rest.foldl min v0) 2 ∉
          ns.map (fun n => n.value) := by
        intro hmem
        exact h1 ((int_contains_iff _ _).2 hmem)
      have hge : a.value ≤ Int.fdiv (a.value + rest.foldl min v0) 2 := by
        rw [Int.fdiv_eq_ediv _ (by norm_num)]
        calc a.value = (2 * a.value + 1) / 2 := (int_two_mul_add_one_ediv a.value).symm
          _ ≤ (a.value + rest.foldl min v0) / 2 :=
            Int.ediv_le_ediv (by norm_num) (by omega)
      have hne : Int.fdiv (a.value + rest.foldl min v0) 2 ≠ a.value := by
        intro he
        rw [he] at hnotmem
        exact hnotmem hmemv
      omega

theorem getNode_single (w : TreeNode) (i : Nat) :
    getNode [w] i = if w.id = i then some w else none := by
  by_cases h : w.id = i
  · simp [getNode, List.find?, h]
  · have hb : (w.id == i) = false := by simp [h]
    simp [getNode, List.find?, hb, h]

theorem getNode_none_of_fresh {ns : List TreeNode} {i : Nat}
    (hids : ∀ n ∈ ns, n.id ≠ i) : getNode ns i = none := by
  rw [getNode, List.find?_eq_none]
  intro m hm
  simp [hids m hm]

theorem getNode_append_resolve {ns : List TreeNode} {w : TreeNode}
    (hids : ∀ n ∈ ns, n.id ≠ w.id) (i : Nat) :
    getNode (ns ++ [w]) i = if i = w.id then some w else getNode ns i := by
  rw [getNode_append]
  by_cases h : i = w.id
  · rw [if_pos h, getNode_none_of_fresh (fun n hn => h ▸ hids n hn)]
    simp [getNode_single, h]
  · rw [if_neg h]
    cases hg : getNode ns i with
    | some c => rfl
    | none =>
      show getNode [w] i = none
      rw [getNode_single, if_neg (fun he => h he.symm)]

theorem getNode_set_append_resolve {ns : List TreeNode} {k : Nat} {a a' w : TreeNode}
    (hk : ns[k]? = some a) (hnd : NodupIds ns) (ha'id : a'.id = a.id)
    (hids : ∀ n ∈ ns, n.id ≠ w.id) (i : Nat) :
    getNode ((ns.set k a') ++ [w]) i =
      if i = w.id then some w
      else if a.id = i then some a'
      else getNode ns i := by
  rw [getNode_append, getNode_set hk ha'id hnd i]
  by_cases hw : i = w.id
  · rw [if_pos hw]
    have haw : a.id ≠ i := by
      intro he
      exact hids a (getElem?_mem hk) (he.trans hw)
    rw [if_neg haw, getNode_none_of_fresh (fun n hn => hw ▸ hids n hn)]
    simp [getNode_single, hw]
  · rw [if_neg hw]
    by_cases hai : a.id = i
    · rw [if_pos hai]
      rfl
    · rw [if_neg hai]
      cases hg : getNode ns i with
      | some c => rfl
      | none =>
        show getNode [w] i = none
        rw [getNode_single, if_neg (fun he => hw he.symm)]

/-- Inserting a fresh childless node under an existing node on one side
preserves the BST edge ordering, provided the new value is on the correct
side of the parent's value. -/
theorem bstEdgesOK_insert_child (ns : List TreeNode) (k : Nat) (a w : TreeNode)
    (isL : Bool) (hk : ns[k]? = some a) (hnd : NodupIds ns)
    (hids : ∀ n ∈ ns, n.id ≠ w.id)
    (hrefs : ∀ n ∈ ns, (∀ i, n.left = some i → i ≠ w.id) ∧
      (∀ i, n.right = some i → i ≠ w.id))
    (hwl : w.left = none) (hwr : w.right = none)
    (hbst : bstEdgesOK ns = true)
    (hval : if isL then w.value < a.value else a.value < w.value) :
    bstEdgesOK
      ((ns.set k
          (if isL then { a with left := some w.id }
           else { a with right := some w.id })) ++ [w]) = true := by
  set a' : TreeNode :=
    (if isL then { a with left := some w.id } else { a with right := some w.id })
    with ha'
  have ha'id : a'.id = a.id := by rw [ha']; cases isL <;> simp
  have ha'val : a'.value = a.value := by rw [ha']; cases isL <;> simp
  have hres := getNode_set_append_resolve hk hnd ha'id hids
  have hbst' := (bstEdgesOK_iff ns).1 hbst
  have hamem : a ∈ ns := getElem?_mem hk
  have hgna : getNode ns a.id = some a := getNode_eq_some_of_mem hamem hnd
  rw [bstEdgesOK_iff]
  intro n hn
  rcases List.mem_append.1 hn with hn' | hn'
  · rcases List.mem_or_eq_of_mem_set hn' with hmem | rfl
    · -- an untouched original node
      obtain ⟨hL0, hR0⟩ := hbst' n hmem
      obtain ⟨hrl, hrr⟩ := hrefs n hmem
      constructor
      · intro i c hi hc
        rw [hres i, if_neg (hrl i hi)] at hc
        by_cases hai : a.id = i
        · rw [if_pos hai] at hc
          cases hc
          rw [ha'val]
          exact hL0 i a hi (hai ▸ hgna)
        · rw [if_neg hai] at hc
          exact hL0 i c hi hc
      · intro i c hi hc
        rw [hres i, if_neg (hrr i hi)] at hc
        by_cases hai : a.id = i
        · rw [if_pos hai] at hc
          cases hc
          rw [ha'val]
          exact hR0 i a hi (hai ▸ hgna)
        · rw [if_neg hai] at hc
          exact hR0 i c hi hc
    · -- the updated parent
      obtain ⟨hL0, hR0⟩ := hbst' a hamem
      obtain ⟨hrl, hrr⟩ := hrefs a hamem
      constructor
      · intro i c hi hc
        by_cases hisl : isL = true
        · -- left slot now points at w
          rw [ha'] at hi
          rw [hisl] at hi hval
          simp only [if_true] at hi hval
          cases hi
          rw [hres w.id, if_pos rfl] at hc
          cases hc
          rw [ha'val]
          exact hval
        · have hisl' : isL = false := by revert hisl; cases isL <;> simp
          rw [ha'] at hi
          rw [hisl'] at hi hval
          simp only [Bool.false_eq_true, if_false] at hi hval
          -- left slot unchanged
          have hi' : a.left = some i := hi
          rw [hres i, if_neg (hrl i hi')] at hc
          by_cases hai : a.id = i
          · exfalso
            have := hL0 i a hi' (hai ▸ hgna)
            omega
          · rw [if_neg hai] at hc
            rw [ha'val]
            exact hL0 i c hi' hc
      · intro i c hi hc
        by_cases hisl : isL = true
        · have hi' : a.right = some i := by
            rw [ha'] at hi
            rw [hisl] at hi
            simpa using hi
          rw [hres i, if_neg (hrr i hi')] at hc
          by_cases hai : a.id = i
          · exfalso
            have := hR0 i a hi' (hai ▸ hgna)
            omega
          · rw [if_neg hai] at hc
            rw [ha'val]
            exact hR0 i c hi' hc
        · have hisl' : isL = false := by revert hisl; cases isL <;> simp
          rw [ha'] at hi
          rw [hisl'] at hi hval
          simp only [Bool.false_eq_true, if_false] at hi hval
          cases hi
          rw [hres w.id, if_pos rfl] at hc
          cases hc
          rw [ha'val]
          exact hval
  · -- the new node: childless
    rcases List.mem_singleton.1 hn' with rfl
    constructor
    · intro i c hi
      rw [hwl] at hi
      cases hi
    · intro i c hi
      rw [hwr] at hi
      cases hi

/-- Appending a fresh node whose single child reference is an existing
parentless anchor preserves the BST edge ordering when the value is on the
correct side. -/
theorem bstEdgesOK_append_parent (ns : List TreeNode) (a w : TreeNode)
    (hnd : NodupIds ns) (hamem : a ∈ ns)
    (hids : ∀ n ∈ ns, n.id ≠ w.id)
    (hrefs : ∀ n ∈ ns, (∀ i, n.left = some i → i ≠ w.id) ∧
      (∀ i, n.right = some i → i ≠ w.id))
    (hw : (w.right = some a.id ∧ w.left = none ∧ w.value < a.value) ∨
          (w.left = some a.id ∧ w.right = none ∧ a.value < w.value))
    (hbst : bstEdgesOK ns = true) :
    bstEdgesOK (ns ++ [w]) = true := by
  have hres := getNode_append_resolve hids
  have hbst' := (bstEdgesOK_iff ns).1 hbst
  have hgna : getNode ns a.id = some a := getNode_eq_some_of_mem hamem hnd
  have haw : a.id ≠ w.id := hids a hamem
  rw [bstEdgesOK_iff]
  intro n hn
  rcases List.mem_append.1 hn with hmem | hn'
  · obtain ⟨hL0, hR0⟩ := hbst' n hmem
    obtain ⟨hrl, hrr⟩ := hrefs n hmem
    constructor
    · intro i c hi hc
      rw [hres i, if_neg (hrl i hi)] at hc
      exact hL0 i c hi hc
    · intro i c hi hc
      rw [hres i, if_neg (hrr i hi)] at hc
      exact hR0 i c hi hc
  · rcases List.mem_singleton.1 hn' with rfl
    rcases hw with ⟨hwr, hwl, hvlt⟩ | ⟨hwl, hwr, hvgt⟩
    · constructor
      · intro i c hi
        rw [hwl] at hi
        cases hi
      · intro i c hi hc
        rw [hwr] at hi
        cases hi
        rw [hres a.id, if_neg haw, hgna] at hc
        cases hc
        exact hvlt
    · constructor
      · intro i c hi hc
        rw [hwl] at hi
        cases hi
        rw [hres a.id, if_neg haw, hgna] at hc
        cases hc
        exact hvgt
      · intro i c hi
        rw [hwr] at hi
        cases hi

set_option maxRecDepth 40000 in
/-- Counterexample to C1 as stated: the one-node collection holding value -1
satisfies the BST edge ordering vacuously, yet the committed right-child
insert driven by the fallback `floor(-1 × 1.5) = -2` produces a right child
smaller than its parent. -/
theorem c1_counterexample :
    bstEdgesOK sNeg.nodes = true
    ∧ bstEdgesOK ((appStep (appStep sNeg (.mouseMove 60 60)) (.click 60 60 0)).nodes)
        = false := by
  with_unfolding_all decide

/-- Claim C1 as amended: on a collection with distinct ids, allocator-fresh
ids and references, non-negative values, and BST-ordered edges, every
committed insert (child insert, parent insert from a valid preview, or root
creation) preserves the BST edge ordering. -/
theorem c1_insert_preserves_bst_edges (s : AppState) (x y cx cy : ℚ) (r : Nat)
    (hnd : NodupIds s.nodes) (hfresh : FreshRefs s)
    (hnn : ∀ n ∈ s.nodes, 0 ≤ n.value)
    (hbst : bstEdgesOK s.nodes = true) :
    bstEdgesOK ((appStep (appStep s (.mouseMove x y)) (.click cx cy r)).nodes)
      = true := by
  show bstEdgesOK (handleClick (handleMouseMove s x y) cx cy r).nodes = true
  cases hpv : (handleMouseMove s x y).previewNode with
  | none =>
    unfold handleClick
    rw [hpv]
    dsimp only
    rw [handleMouseMove_nodes]
    by_cases hemp : s.nodes.isEmpty
    · rw [if_pos hemp]
      dsimp only
      rw [bstEdgesOK_iff]
      intro n hn
      rcases List.mem_singleton.1 hn with rfl
      constructor
      · intro i c hi
        cases hi
      · intro i c hi
        cases hi
    · rw [if_neg hemp]
      exact hbst
  | some pv =>
    rcases handleMouseMove_previewNode_spec s x y pv hpv with
      ⟨a, hfind, hpid, hleft, hchild, hval, hsent, hoccs, hpar⟩
    have hamem : a ∈ s.nodes := findCloseNode_mem hfind
    unfold handleClick
    rw [hpv]
    dsimp only
    rw [handleMouseMove_nodes, handleMouseMove_nextId]
    have hidsfresh : ∀ n ∈ s.nodes, n.id ≠ s.nextId :=
      fun n hn => Nat.ne_of_lt (hfresh n hn).1
    have hrefsfresh : ∀ n ∈ s.nodes,
        (∀ i, n.left = some i → i ≠ s.nextId) ∧
        (∀ i, n.right = some i → i ≠ s.nextId) := by
      intro n hn
      constructor
      · intro i hi
        exact Nat.ne_of_lt ((hfresh n hn).2.1 i (by simp [Option.mem_def, hi]))
      · intro i hi
        exact Nat.ne_of_lt ((hfresh n hn).2.2 i (by simp [Option.mem_def, hi]))
    obtain ⟨k, hk⟩ := List.getElem?_of_mem hamem
    have hfi : s.nodes.findIdx? (fun n => n.id == pv.parentId) = some k := by
      rw [hpid]
      exact findIdx?_of_getElem hk hnd
    rw [hfi]
    dsimp only
    rw [hk]
    dsimp only
    cases hrole : pv.isChild with
    | true =>
      rw [if_pos rfl]
      have hvside : if pv.isLeft then
          (⟨s.nextId, pv.value, pv.x, pv.y, none, none⟩ : TreeNode).value < a.value
        else a.value < (⟨s.nextId, pv.value, pv.x, pv.y, none, none⟩ : TreeNode).value := by
        cases hL : pv.isLeft with
        | true =>
          simp only [if_true]
          show pv.value < a.value
          rw [hval, hL]
          exact getDefault_left_lt a s.nodes (by rw [← hL, ← hval]; exact hsent)
        | false =>
          simp only [Bool.false_eq_true, if_false]
          show a.value < pv.value
          rw [hval, hL]
          exact getDefault_right_gt a s.nodes hamem hnn (by rw [← hL, ← hval]; exact hsent)
      exact bstEdgesOK_insert_child s.nodes k a
        ⟨s.nextId, pv.value, pv.x, pv.y, none, none⟩ pv.isLeft hk hnd
        hidsfresh hrefsfresh rfl rfl hbst hvside
    | false =>
      rw [if_neg (by simp)]
      have hnopar : hasParentB s.nodes a.id = false := hpar hrole
      have hnone : findParentIdx s.nodes pv.parentId = none := by
        rw [hpid]
        exact (findParentIdx_none_iff s.nodes a.id).2
          ((hasParentB_false_iff s.nodes a.id).1 hnopar)
      rw [hnone]
      dsimp only
      cases hL : pv.isLeft with
      | true =>
        rw [if_pos rfl]
        refine bstEdgesOK_append_parent s.nodes a
          ⟨s.nextId, pv.value, pv.x, pv.y, none, some pv.parentId⟩ hnd hamem
          hidsfresh hrefsfresh ?_ hbst
        left
        refine ⟨by simp [hpid], rfl, ?_⟩
        show pv.value < a.value
        rw [hval, hL]
        exact getDefault_left_lt a s.nodes (by rw [← hL, ← hval]; exact hsent)
      | false =>
        rw [if_neg (by simp)]
        refine bstEdgesOK_append_parent s.nodes a
          ⟨s.nextId, pv.value, pv.x, pv.y, some pv.parentId, none⟩ hnd hamem
          hidsfresh hrefsfresh ?_ hbst
        right
        refine ⟨by simp [hpid], rfl, ?_⟩
        show a.value < pv.value
        rw [hval, hL]
        exact getDefault_right_gt a s.nodes hamem hnn (by rw [← hL, ← hval]; exact hsent)

/-- Witness for the amended C1 at the spec's example scenario: lone root 20,
pointer left-below, the committed left child 10 keeps the edges ordered. -/
theorem c1_insert_preserves_bst_edges_witness :
    (NodupIds s20.nodes ∧ FreshRefs s20 ∧ (∀ n ∈ s20.nodes, 0 ≤ n.value)
      ∧ bstEdgesOK s20.nodes = true)
    ∧ bstEdgesOK ((appStep (appStep s20 (.mouseMove 60 160)) (.click 60 160 0)).nodes)
        = true := by
  have hnd : NodupIds s20.nodes := by unfold NodupIds; decide
  have hfresh : FreshRefs s20 := by
    intro n hn
    simp only [s20, List.mem_singleton] at hn
    subst hn
    refine ⟨by decide, ?_, ?_⟩ <;> intro i hi <;> simp at hi
  have hnn : ∀ n ∈ s20.nodes, 0 ≤ n.value := by
    intro n hn
    simp only [s20, List.mem_singleton] at hn
    subst hn
    norm_num
  have hbst : bstEdgesOK s20.nodes = true := by decide
  exact ⟨⟨hnd, hfresh, hnn, hbst⟩,
    c1_insert_preserves_bst_edges s20 60 160 60 160 0 hnd hfresh hnn hbst⟩

/-! ## C2: structural rotation round trip -/

theorem findIdx?_by_id_congr {l1 l2 : List TreeNode}
    (h : l1.map (·.id) = l2.map (·.id)) (j : Nat) :
    l1.findIdx? (fun n => n.id == j) = l2.findIdx? (fun n => n.id == j) := by
  have h1 : l1.findIdx? (fun n => n.id == j) =
      (l1.map (·.id)).findIdx? (fun i => i == j) := by
    rw [List.findIdx?_map]
    rfl
  have h2 : l2.findIdx? (fun n => n.id == j) =
      (l2.map (·.id)).findIdx? (fun i => i == j) := by
    rw [List.findIdx?_map]
    rfl
  rw [h1, h2, h]

theorem mapIds_set {ns : List TreeNode} {k : Nat} {a b : TreeNode}
    (hk : ns[k]? = some a) (hid : b.id = a.id) :
    (ns.set k b).map (·.id) = ns.map (·.id) := by
  rw [List.map_set]
  apply list_set_self
  rw [List.getElem?_map, hk]
  simp [hid]

theorem nodupIds_getElem_ne {ns : List TreeNode} {i j : Nat} {a b : TreeNode}
    (hnd : NodupIds ns) (hi : ns[i]? = some a) (hj : ns[j]? = some b)
    (hij : i ≠ j) : a.id ≠ b.id := by
  rcases List.getElem?_eq_some.1 hi with ⟨hilt, hig⟩
  rcases List.getElem?_eq_some.1 hj with ⟨hjlt, hjg⟩
  intro he
  have hilt' : i < (ns.map (·.id)).length := by simpa using hilt
  have hjlt' : j < (ns.map (·.id)).length := by simpa using hjlt
  have hgi : (ns.map (·.id)).get ⟨i, hilt'⟩ = a.id := by
    simp [hig]
  have hgj : (ns.map (·.id)).get ⟨j, hjlt'⟩ = b.id := by
    simp [hjg]
  have := (List.Nodup.get_inj_iff hnd (i := ⟨i, hilt'⟩) (j := ⟨j, hjlt'⟩)).1
  exact hij (congrArg Fin.val (this (by rw [hgi, hgj, he])))

theorem findParentIdx_pointwise_none {ns : List TreeNode} {nid : Nat}
    (h : ∀ (j : Nat) (q' : TreeNode), ns[j]? = some q' →
      q'.left ≠ some nid ∧ q'.right ≠ some nid) :
    findParentIdx ns nid = none := by
  rw [findParentIdx_none_iff]
  intro n hn
  obtain ⟨j, hj⟩ := List.getElem?_of_mem hn
  exact h j n hj

theorem findParentIdx_pointwise_left {ns : List TreeNode} {k : Nat} {q : TreeNode}
    {nid : Nat} (hk : ns[k]? = some q) (hq : q.left = some nid)
    (hothers : ∀ (j : Nat) (q' : TreeNode), j ≠ k → ns[j]? = some q' →
      q'.left ≠ some nid ∧ q'.right ≠ some nid) :
    findParentIdx ns nid = some (k, true) := by
  unfold findParentIdx
  induction ns generalizing k with
  | nil => simp at hk
  | cons h tl ih =>
    cases k with
    | zero =>
      simp only [List.getElem?_cons_zero, Option.some_inj] at hk
      subst hk
      rw [findParentIdxAux, if_pos (by simp [hq])]
    | succ k =>
      simp only [List.getElem?_cons_succ] at hk
      have hh := hothers 0 h (by simp) (by simp)
      rw [findParentIdxAux, if_neg (by simp [hh.1]), if_neg (by simp [hh.2]),
        findParentIdxAux_shift]
      have htl : findParentIdxAux nid tl 0 = some (k, true) := by
        apply ih hk
        intro j q' hj hq'
        exact hothers (j + 1) q' (by omega) (by simpa using hq')
      rw [htl]
      rfl

theorem findParentIdx_pointwise_right {ns : List TreeNode} {k : Nat} {q : TreeNode}
    {nid : Nat} (hk : ns[k]? = some q) (hq : q.right = some nid)
    (hql : q.left ≠ some nid)
    (hothers : ∀ (j : Nat) (q' : TreeNode), j ≠ k → ns[j]? = some q' →
      q'.left ≠ some nid ∧ q'.right ≠ some nid) :
    findParentIdx ns nid = some (k, false) := by
  unfold findParentIdx
  induction ns generalizing k with
  | nil => simp at hk
  | cons h tl ih =>
    cases k with
    | zero =>
      simp only [List.getElem?_cons_zero, Option.some_inj] at hk
      subst hk
      rw [findParentIdxAux, if_neg (by simpa using hql), if_pos (by simp [hq])]
    | succ k =>
      simp only [List.getElem?_cons_succ] at hk
      have hh := hothers 0 h (by simp) (by simp)
      rw [findParentIdxAux, if_neg (by simp [hh.1]), if_neg (by simp [hh.2]),
        findParentIdxAux_shift]
      have htl : findParentIdxAux nid tl 0 = some (k, false) := by
        apply ih hk
        intro j q' hj hq'
        exact hothers (j + 1) q' (by omega) (by simpa using hq')
      rw [htl]
      rfl

theorem rotateStruct_left_noparent {ns : List TreeNode} {uId pId uIdx pIdx : Nat}
    {u p : TreeNode}
    (hfu : ns.findIdx? (fun n => n.id == uId) = some uIdx)
    (huk : ns[uIdx]? = some u) (hru : u.right = some pId)
    (hfp : ns.findIdx? (fun n => n.id == pId) = some pIdx)
    (hpk : ns[pIdx]? = some p)
    (hg : ∀ g, p.left = some g → (ns.findIdx? (fun n => n.id == g)).isSome = true)
    (hpar : findParentIdx ns uId = none) :
    rotateStruct ns uId Dir.left =
      (ns.set uIdx { u with right := p.left }).set pIdx { p with left := some uId } := by
  unfold rotateStruct
  rw [hfu]
  dsimp only
  rw [huk]
  dsimp only [childOf]
  rw [hru]
  dsimp only
  rw [hfp]
  dsimp only
  rw [hpk]
  dsimp only [grandOf, setChildOf, setGrandOf]
  rw [hpar]
  dsimp only
  cases hgl : p.left with
  | none =>
    dsimp only
  | some g =>
    dsimp only
    rw [if_pos (hg g hgl)]

theorem rotateStruct_left_parent {ns : List TreeNode} {uId pId uIdx pIdx qIdx : Nat}
    {u p q' : TreeNode} {isL : Bool}
    (hfu : ns.findIdx? (fun n => n.id == uId) = some uIdx)
    (huk : ns[uIdx]? = some u) (hru : u.right = some pId)
    (hfp : ns.findIdx? (fun n => n.id == pId) = some pIdx)
    (hpk : ns[pIdx]? = some p)
    (hg : ∀ g, p.left = some g → (ns.findIdx? (fun n => n.id == g)).isSome = true)
    (hpar : findParentIdx ns uId = some (qIdx, isL))
    (hqk : ((ns.set uIdx { u with right := p.left }).set pIdx
        { p with left := some uId })[qIdx]? = some q') :
    rotateStruct ns uId Dir.left =
      ((ns.set uIdx { u with right := p.left }).set pIdx
          { p with left := some uId }).set qIdx
        (if isL then { q' with left := some pId } else { q' with right := some pId }) := by
  unfold rotateStruct
  rw [hfu]
  dsimp only
  rw [huk]
  dsimp only [childOf]
  rw [hru]
  dsimp only
  rw [hfp]
  dsimp only
  rw [hpk]
  dsimp only [grandOf, setChildOf, setGrandOf]
  rw [hpar]
  dsimp only
  cases hgl : p.left with
  | none =>
    dsimp only
    rw [hgl] at hqk
    rw [hqk]
  | some g =>
    dsimp only
    rw [hgl] at hqk
    rw [if_pos (hg g hgl), hqk]

theorem rotateStruct_right_noparent {ns : List TreeNode} {pId uId pIdx uIdx : Nat}
    {p u : TreeNode}
    (hfp : ns.findIdx? (fun n => n.id == pId) = some pIdx)
    (hpk : ns[pIdx]? = some p) (hpl : p.left = some uId)
    (hfu : ns.findIdx? (fun n => n.id == uId) = some uIdx)
    (huk : ns[uIdx]? = some u)
    (hg : ∀ g, u.right = some g → (ns.findIdx? (fun n => n.id == g)).isSome = true)
    (hpar : findParentIdx ns pId = none) :
    rotateStruct ns pId Dir.right =
      (ns.set pIdx { p with left := u.right }).set uIdx { u with right := some pId } := by
  unfold rotateStruct
  rw [hfp]
  dsimp only
  rw [hpk]
  dsimp only [childOf]
  rw [hpl]
  dsimp only
  rw [hfu]
  dsimp only
  rw [huk]
  dsimp only [grandOf, setChildOf, setGrandOf]
  rw [hpar]
  dsimp only
  cases hgl : u.right with
  | none =>
    dsimp only
  | some g =>
    dsimp only
    rw [if_pos (hg g hgl)]

theorem rotateStruct_right_parent {ns : List TreeNode} {pId uId pIdx uIdx qIdx : Nat}
    {p u q' : TreeNode} {isL : Bool}
    (hfp : ns.findIdx? (fun n => n.id == pId) = some pIdx)
    (hpk : ns[pIdx]? = some p) (hpl : p.left = some uId)
    (hfu : ns.findIdx? (fun n => n.id == uId) = some uIdx)
    (huk : ns[uIdx]? = some u)
    (hg : ∀ g, u.right = some g → (ns.findIdx? (fun n => n.id == g)).isSome = true)
    (hpar : findParentIdx ns pId = some (qIdx, isL))
    (hqk : ((ns.set pIdx { p with left := u.right }).set uIdx
        { u with right := some pId })[qIdx]? = some q') :
    rotateStruct ns pId Dir.right =
      ((ns.set pIdx { p with left := u.right }).set uIdx
          { u with right := some pId }).set qIdx
        (if isL then { q' with left := some uId } else { q' with right := some uId }) := by
  unfold rotateStruct
  rw [hfp]
  dsimp only
  rw [hpk]
  dsimp only [childOf]
  rw [hpl]
  dsimp only
  rw [hfu]
  dsimp only
  rw [huk]
  dsimp only [grandOf, setChildOf, setGrandOf]
  rw [hpar]
  dsimp only
  cases hgl : u.right with
  | none =>
    dsimp only
    rw [hgl] at hqk
    rw [hqk]
  | some g =>
    dsimp only
    rw [hgl] at hqk
    rw [if_pos (hg g hgl), hqk]

/-- Claim C2: on a well-formed collection (distinct ids, closed references,
unique parents, no self-loop or two-cycle between the rotated pair), the
structural left rotation on `u` followed by the structural right rotation on
the resulting pivot `p` restores the collection exactly — in particular every
parent/child value relationship. -/
theorem c2_rotate_round_trip (ns : List TreeNode) (uId pId : Nat) (u p : TreeNode)
    (hnd : NodupIds ns) (hcl : ClosedRefs ns) (hup : UniqueParent ns)
    (hu : getNode ns uId = some u) (hp : getNode ns pId = some p)
    (hru : u.right = some pId) (hne : pId ≠ uId)
    (hplu : p.left ≠ some uId) (hpru : p.right ≠ some uId)
    (huls : u.left ≠ some uId) :
    rotateStruct (rotateStruct ns uId Dir.left) pId Dir.right = ns := by
  obtain ⟨humem, huid⟩ := getNode_mem hu
  obtain ⟨hpmem, hpid⟩ := getNode_mem hp
  obtain ⟨uIdx, huk⟩ := List.getElem?_of_mem humem
  obtain ⟨pIdx, hpk⟩ := List.getElem?_of_mem hpmem
  have hfu : ns.findIdx? (fun n => n.id == uId) = some uIdx := by
    rw [← huid]
    exact findIdx?_of_getElem huk hnd
  have hfp : ns.findIdx? (fun n => n.id == pId) = some pIdx := by
    rw [← hpid]
    exact findIdx?_of_getElem hpk hnd
  have hune : u ≠ p := by
    intro he
    apply hne
    rw [← hpid, ← he, huid]
  have hidx_ne : uIdx ≠ pIdx := by
    intro he
    rw [he, hpk] at huk
    exact hune (Option.some_inj.1 huk).symm
  have hpslots : p.left ≠ some pId ∧ p.right ≠ some pId :=
    uniqueParent_other_slots hup humem (Or.inr hru) hpmem (fun he => hune he.symm)
  have hulp : u.left ≠ some pId :=
    fun he => uniqueParent_slots hup humem ⟨he, hru⟩
  have hothers_p : ∀ m ∈ ns, m ≠ u → m.left ≠ some pId ∧ m.right ≠ some pId :=
    fun m hm hmne => uniqueParent_other_slots hup humem (Or.inr hru) hm hmne
  have hg1 : ∀ g, p.left = some g →
      (ns.findIdx? (fun n => n.id == g)).isSome = true := by
    intro g hgl
    obtain ⟨m, hm, hmid⟩ := (hcl p hpmem).1 g (by simp [Option.mem_def, hgl])
    exact findIdx?_isSome_of_mem hm (by simp [hmid])
  have hulen : uIdx < ns.length := (List.getElem?_eq_some.1 huk).1
  have hplen : pIdx < ns.length := (List.getElem?_eq_some.1 hpk).1
  set u1 : TreeNode := { u with right := p.left } with hu1
  set p1 : TreeNode := { p with left := some uId } with hp1
  have hurec : ({ u1 with right := some pId } : TreeNode) = u := by
    show ({ u with right := some pId } : TreeNode) = u
    rw [← hru]
  cases hpar : findParentIdx ns uId with
  | none =>
    have h1 : rotateStruct ns uId Dir.left = (ns.set uIdx u1).set pIdx p1 :=
      rotateStruct_left_noparent hfu huk hru hfp hpk hg1 hpar
    set L1 : List TreeNode := (ns.set uIdx u1).set pIdx p1 with hL1
    have hset1pk : (ns.set uIdx u1)[pIdx]? = some p := by
      rw [List.getElem?_set_ne hidx_ne]
      exact hpk
    have hmap : L1.map (·.id) = ns.map (·.id) := by
      rw [hL1, mapIds_set hset1pk (show p1.id = p.id from rfl), mapIds_set huk (show u1.id = u.id from rfl)]
    have hL1u : L1[uIdx]? = some u1 := by
      rw [hL1, List.getElem?_set_ne (Ne.symm hidx_ne),
        List.getElem?_set_eq (by simpa using hulen)]
    have hL1p : L1[pIdx]? = some p1 := by
      rw [hL1, List.getElem?_set_eq (by simpa using hplen)]
    have hL1other : ∀ j, j ≠ uIdx → j ≠ pIdx → L1[j]? = ns[j]? := by
      intro j h1' h2'
      rw [hL1, List.getElem?_set_ne (Ne.symm h2'), List.getElem?_set_ne (Ne.symm h1')]
    have hfu2 : L1.findIdx? (fun n => n.id == uId) = some uIdx := by
      rw [findIdx?_by_id_congr hmap]
      exact hfu
    have hfp2 : L1.findIdx? (fun n => n.id == pId) = some pIdx := by
      rw [findIdx?_by_id_congr hmap]
      exact hfp
    have hg2 : ∀ g, u1.right = some g →
        (L1.findIdx? (fun n => n.id == g)).isSome = true := by
      intro g hgl
      rw [findIdx?_by_id_congr hmap]
      exact hg1 g hgl
    have hpar2 : findParentIdx L1 pId = none := by
      apply findParentIdx_pointwise_none
      intro j q' hj
      by_cases hju : j = uIdx
      · subst hju
        rw [hL1u] at hj
        cases hj
        exact ⟨hulp, hpslots.1⟩
      · by_cases hjp : j = pIdx
        · subst hjp
          rw [hL1p] at hj
          cases hj
          refine ⟨?_, hpslots.2⟩
          intro he
          exact hne (Option.some_inj.1 (show some uId = some pId from he)).symm
        · rw [hL1other j hju hjp] at hj
          have hmemj : q' ∈ ns := getElem?_mem hj
          have hqid : q'.id ≠ u.id := nodupIds_getElem_ne hnd hj huk hju
          exact hothers_p q' hmemj (fun he => hqid (by rw [he]))
    have h2 : rotateStruct L1 pId Dir.right =
        (L1.set pIdx { p1 with left := u1.right }).set uIdx { u1 with right := some pId } :=
      rotateStruct_right_noparent hfp2 hL1p rfl hfu2 hL1u hg2 hpar2
    rw [h1, h2]
    have hprec : ({ p1 with left := u1.right } : TreeNode) = p := rfl
    rw [hprec, hurec, hL1]
    rw [List.set_set]
    rw [List.set_comm _ _ _ hidx_ne]
    rw [List.set_set]
    rw [list_set_self hpk, list_set_self huk]
  | some pr =>
    obtain ⟨qIdx, isL⟩ := pr
    rcases findParentIdx_spec hpar with ⟨q, hqk0, hqcase⟩
    have hqmem : q ∈ ns := getElem?_mem hqk0
    have hqlen : qIdx < ns.length := (List.getElem?_eq_some.1 hqk0).1
    have hqneu : q ≠ u := by
      intro he
      rcases hqcase with ⟨_, hql⟩ | ⟨_, hqr, _⟩
      · rw [he] at hql
        exact huls hql
      · rw [he] at hqr
        rw [hru] at hqr
        exact hne (Option.some_inj.1 hqr)
    have hqnep : q ≠ p := by
      intro he
      rcases hqcase with ⟨_, hql⟩ | ⟨_, hqr, _⟩
      · rw [he] at hql
        exact hplu hql
      · rw [he] at hqr
        exact hpru hqr
    have hqu_ne : qIdx ≠ uIdx := by
      intro he
      rw [he, huk] at hqk0
      exact hqneu (Option.some_inj.1 hqk0).symm
    have hqp_ne : qIdx ≠ pIdx := by
      intro he
      rw [he, hpk] at hqk0
      exact hqnep (Option.some_inj.1 hqk0).symm
    set q1 : TreeNode :=
      (if isL then { q with left := some pId } else { q with right := some pId })
      with hq1
    have hq1id : q1.id = q.id := by
      rw [hq1]
      cases isL <;> rfl
    have hqk : ((ns.set uIdx u1).set pIdx p1)[qIdx]? = some q := by
      rw [List.getElem?_set_ne (Ne.symm hqp_ne), List.getElem?_set_ne (Ne.symm hqu_ne)]
      exact hqk0
    have h1 : rotateStruct ns uId Dir.left =
        ((ns.set uIdx u1).set pIdx p1).set qIdx q1 := by
      have := rotateStruct_left_parent hfu huk hru hfp hpk hg1 hpar hqk
      rw [this, hq1]
    set L1 : List TreeNode := ((ns.set uIdx u1).set pIdx p1).set qIdx q1 with hL1
    have hset1pk : (ns.set uIdx u1)[pIdx]? = some p := by
      rw [List.getElem?_set_ne hidx_ne]
      exact hpk
    have hqk2 : ((ns.set uIdx u1).set pIdx p1)[qIdx]? = some q := hqk
    have hmap : L1.map (·.id) = ns.map (·.id) := by
      rw [hL1, mapIds_set hqk2 hq1id, mapIds_set hset1pk (show p1.id = p.id from rfl), mapIds_set huk (show u1.id = u.id from rfl)]
    have hL1u : L1[uIdx]? = some u1 := by
      rw [hL1, List.getElem?_set_ne hqu_ne, List.getElem?_set_ne (Ne.symm hidx_ne),
        List.getElem?_set_eq (by simpa using hulen)]
    have hL1p : L1[pIdx]? = some p1 := by
      rw [hL1, List.getElem?_set_ne hqp_ne,
        List.getElem?_set_eq (by simpa using hplen)]
    have hL1q : L1[qIdx]? = some q1 := by
      rw [hL1, List.getElem?_set_eq (by simpa using hqlen)]
    have hL1other : ∀ j, j ≠ uIdx → j ≠ pIdx → j ≠ qIdx → L1[j]? = ns[j]? := by
      intro j h1' h2' h3'
      rw [hL1, List.getElem?_set_ne (Ne.symm h3'), List.getElem?_set_ne (Ne.symm h2'),
        List.getElem?_set_ne (Ne.symm h1')]
    have hfu2 : L1.findIdx? (fun n => n.id == uId) = some uIdx := by
      rw [findIdx?_by_id_congr hmap]
      exact hfu
    have hfp2 : L1.findIdx? (fun n => n.id == pId) = some pIdx := by
      rw [findIdx?_by_id_congr hmap]
      exact hfp
    have hg2 : ∀ g, u1.right = some g →
        (L1.findIdx? (fun n => n.id == g)).isSome = true := by
      intro g hgl
      rw [findIdx?_by_id_congr hmap]
      exact hg1 g hgl
    have hothers2 : ∀ (j : Nat) (q' : TreeNode), j ≠ qIdx → L1[j]? = some q' →
        q'.left ≠ some pId ∧ q'.right ≠ some pId := by
      intro j q' hjq hj
      by_cases hju : j = uIdx
      · subst hju
        rw [hL1u] at hj
        cases hj
        exact ⟨hulp, hpslots.1⟩
      · by_cases hjp : j = pIdx
        · subst hjp
          rw [hL1p] at hj
          cases hj
          refine ⟨?_, hpslots.2⟩
          intro he
          exact hne (Option.some_inj.1 (show some uId = some pId from he)).symm
        · rw [hL1other j hju hjp hjq] at hj
          have hmemj : q' ∈ ns := getElem?_mem hj
          have hqid : q'.id ≠ u.id := nodupIds_getElem_ne hnd hj huk hju
          exact hothers_p q' hmemj (fun he => hqid (by rw [he]))
    have hpar2 : findParentIdx L1 pId = some (qIdx, isL) := by
      rcases hqcase with ⟨hb, hql⟩ | ⟨hb, hqr, hqlne⟩
      · subst hb
        apply findParentIdx_pointwise_left hL1q
        · rw [hq1]
          simp
        · exact hothers2
      · subst hb
        apply findParentIdx_pointwise_right hL1q
        · rw [hq1]
          simp
        · rw [hq1]
          simp only [Bool.false_eq_true, if_false]
          have hqlp : q.left ≠ some pId :=
            (hothers_p q hqmem hqneu).1
          simpa using hqlp
        · exact hothers2
    have hL2q : ((L1.set pIdx { p1 with left := u1.right }).set uIdx
        { u1 with right := some pId })[qIdx]? = some q1 := by
      rw [List.getElem?_set_ne (Ne.symm hqu_ne), List.getElem?_set_ne (Ne.symm hqp_ne)]
      exact hL1q
    have h2 : rotateStruct L1 pId Dir.right =
        ((L1.set pIdx { p1 with left := u1.right }).set uIdx
            { u1 with right := some pId }).set qIdx
          (if isL then { q1 with left := some uId } else { q1 with right := some uId }) :=
      rotateStruct_right_parent hfp2 hL1p rfl hfu2 hL1u hg2 hpar2 hL2q
    have hqrec : (if isL then { q1 with left := some uId }
        else { q1 with right := some uId }) = q := by
      rcases hqcase with ⟨hb, hql⟩ | ⟨hb, hqr, _⟩
      · subst hb
        rw [hq1]
        simp only [if_true]
        show ({ q with left := some uId } : TreeNode) = q
        rw [← hql]
      · subst hb
        rw [hq1]
        simp only [Bool.false_eq_true, if_false]
        show ({ q with right := some uId } : TreeNode) = q
        rw [← hqr]
    have hprec : ({ p1 with left := u1.right } : TreeNode) = p := rfl
    rw [h1, h2, hprec, hurec, hqrec, hL1]
    apply List.ext_getElem?
    intro j
    by_cases hjq : j = qIdx
    · subst hjq
      rw [List.getElem?_set_eq (by simpa using hqlen)]
      exact hqk0.symm
    · rw [List.getElem?_set_ne (Ne.symm hjq)]
      by_cases hju : j = uIdx
      · subst hju
        rw [List.getElem?_set_eq (by simpa using hulen)]
        exact huk.symm
      · rw [List.getElem?_set_ne (Ne.symm hju)]
        by_cases hjp : j = pIdx
        · subst hjp
          rw [List.getElem?_set_eq (by simpa using hplen)]
          exact hpk.symm
        · rw [List.getElem?_set_ne (Ne.symm hjp), List.getElem?_set_ne (Ne.symm hjq),
            List.getElem?_set_ne (Ne.symm hjp), List.getElem?_set_ne (Ne.symm hju)]

/-- Witness for C2: on the concrete four-node chain, rotating node 1 left and
then node 2 right restores the collection. -/
theorem c2_rotate_round_trip_witness :
    rotateStruct (rotateStruct ns2c 1 Dir.left) 2 Dir.right = ns2c :=
  c2_rotate_round_trip ns2c 1 2 n2u n2p
    (by unfold NodupIds ns2c; decide)
    (by unfold ClosedRefs ns2c; decide)
    (by unfold UniqueParent childRefs ns2c; decide)
    (by unfold getNode ns2c n2u; with_unfolding_all decide)
    (by unfold getNode ns2c n2p; with_unfolding_all decide)
    (by unfold n2u; decide)
    (by decide)
    (by unfold n2p; decide)
    (by unfold n2p; decide)
    (by unfold n2u; decide)

/-- Claim C4 fails in the code: committing the left rotation of node 1 on the
three-node tree P(15) with left child N(10) whose right child is C(12) edits a
node object of the previous committed snapshot in place.  Cell 0 holds the
object P referenced by the pre-commit snapshot `[0, 1, 2]`; the commit returns
the new snapshot `[0, 3, 4]` and repoints P's left reference by writing through
cell 0 instead of allocating a copy, so the object the previous snapshot still
holds has changed from `left = some 1` to `left = some 4`. -/
theorem c4_commit_mutates_shared_object :
    0 ∈ c4snap ∧
    c4store[0]? = some ⟨0, 15, 100, 100, some 1, none⟩ ∧
    (rotationCommitHeap c4store c4snap 1 Dir.left c4sns).2 = [0, 3, 4] ∧
    ((rotationCommitHeap c4store c4snap 1 Dir.left c4sns).1)[0]? =
      some ⟨0, 15, 100, 100, some 4, none⟩ := by
  with_unfolding_all decide

/-! ## C3: commit ordering of the rotation engine -/

/-- An integration step changes neither ids nor targets. -/
theorem simTargets_tick (sns : List SimNode) (a : ℚ) :
    simTargets (simTickNodes sns a) = simTargets sns := by
  unfold simTargets simTickNodes
  rw [List.map_map]
  rfl

/-- The snap writes exactly the targets into the positions. -/
theorem snapSimNodes_proj (sns : List SimNode) :
    (snapSimNodes sns).map (fun n => (n.id, n.x, n.y)) = simTargets sns := by
  unfold simTargets snapSimNodes
  rw [List.map_map]
  rfl

/-- The write-back body only reads the id and the coordinates. -/
theorem applyOneSim_proj (acc : List TreeNode) (a b : SimNode)
    (hid : a.id = b.id) (hx : a.x = b.x) (hy : a.y = b.y) :
    applyOneSim acc a = applyOneSim acc b := by
  unfold applyOneSim
  rw [hid, hx, hy]

/-- The position write-back is determined by the id/coordinate projection of
the simulation nodes. -/
theorem applySimPositions_proj_congr :
    ∀ (sns1 sns2 : List SimNode) (ns : List TreeNode),
    sns1.map (fun n => (n.id, n.x, n.y)) = sns2.map (fun n => (n.id, n.x, n.y)) →
    applySimPositions ns sns1 = applySimPositions ns sns2 := by
  intro sns1
  induction sns1 with
  | nil =>
    intro sns2 ns h
    cases sns2 with
    | nil => rfl
    | cons b t2 => simp at h
  | cons a t ih =>
    intro sns2 ns h
    cases sns2 with
    | nil => simp at h
    | cons b t2 =>
      simp only [List.map_cons, List.cons.injEq, Prod.mk.injEq] at h
      obtain ⟨⟨hid, hx, hy⟩, htail⟩ := h
      show applySimPositions (applyOneSim ns a) t = applySimPositions (applyOneSim ns b) t2
      rw [applyOneSim_proj ns a b hid hx hy]
      exact ih t2 (applyOneSim ns b) htail

/-- A link timer tick is a no-op while the node phase is unfinished. -/
theorem linkTickFn_pre (s : AppState) (h : s.nodeAnimationComplete = false) :
    linkTickFn s = s := by
  unfold linkTickFn
  rw [h]
  simp

/-- A non-converging simulation step only decays alpha and integrates. -/
theorem simStepFn_continue (s : AppState) (ss : SimState) (hs : s.sim = some ss)
    (hc : simConvergingB s = false) :
    simStepFn s =
      { s with
        sim := some { ss with
                      alpha := ss.alpha * (97/100),
                      simNodes := simTickNodes ss.simNodes (ss.alpha * (97/100)) } } := by
  unfold simConvergingB at hc
  rw [hs] at hc
  simp only [decide_eq_false_iff_not] at hc
  unfold simStepFn
  rw [hs]
  dsimp only
  rw [if_neg hc]

/-- A converging simulation step with succeeding commit re-lookups fires the
`end` handler: snap, finish the node phase, commit the structural rotation. -/
theorem simStepFn_commit (s : AppState) (ss : SimState) (hs : s.sim = some ss)
    (hc : simConvergingB s = true) (hok : commitOKB s.nodes ss = true) :
    simStepFn s =
      { s with
        sim := none,
        nodeAnimationComplete := true,
        nodes := applySimPositions (rotateStruct s.nodes ss.nodeId ss.dir)
          (snapSimNodes (simTickNodes ss.simNodes (ss.alpha * (97/100)))) } := by
  unfold simConvergingB at hc
  rw [hs] at hc
  simp only [decide_eq_true_eq] at hc
  unfold simStepFn
  rw [hs]
  dsimp only
  rw [if_pos hc, if_pos hok]

/-- A converging simulation step with failing commit re-lookups aborts. -/
theorem simStepFn_abort (s : AppState) (ss : SimState) (hs : s.sim = some ss)
    (hc : simConvergingB s = true) (hok : commitOKB s.nodes ss = false) :
    simStepFn s =
      { s with
        sim := none,
        nodeAnimationComplete := true,
        isAnimating := false } := by
  unfold simConvergingB at hc
  rw [hs] at hc
  simp only [decide_eq_true_eq] at hc
  unfold simStepFn
  rw [hs]
  dsimp only
  rw [if_pos hc, if_neg (by rw [hok]; exact Bool.false_ne_true)]

/-- With a running simulation, a simulation tick is the commit transition
exactly when the decayed alpha crosses `alphaMin`. -/
theorem commitStepB_simStep (s : AppState) (ss : SimState) (hs : s.sim = some ss) :
    commitStepB s Event.simStep = simConvergingB s := by
  unfold commitStepB
  cases hc : simConvergingB s with
  | false =>
    rw [show appStep s Event.simStep = simStepFn s from rfl,
      simStepFn_continue s ss hs hc]
    simp
  | true =>
    cases hok : commitOKB s.nodes ss with
    | false =>
      rw [show appStep s Event.simStep = simStepFn s from rfl,
        simStepFn_abort s ss hs hc hok, hs]
      rfl
    | true =>
      rw [show appStep s Event.simStep = simStepFn s from rfl,
        simStepFn_commit s ss hs hc hok, hs]
      rfl

/-- A link tick before the node phase ends is never the commit transition. -/
theorem commitStepB_linkTick_pre (s : AppState)
    (h : s.nodeAnimationComplete = false) :
    commitStepB s Event.linkTick = false := by
  unfold commitStepB
  rw [show appStep s Event.linkTick = linkTickFn s from rfl, linkTickFn_pre s h]
  simp

/-- A non-commit timer tick preserves the node-movement phase. -/
theorem prePhase_step (s1 s : AppState) (e : Event) (hp : PrePhase s1 s)
    (he : e = Event.simStep ∨ e = Event.linkTick)
    (hcs : commitStepB s e = false) : PrePhase s1 (appStep s e) := by
  obtain ⟨hn, hia, hnc, ss1, ss, hs1, hs, hid, hdir, htg⟩ := hp
  cases he with
  | inl h =>
    subst h
    have hcv : simConvergingB s = false := by
      rw [← commitStepB_simStep s ss hs]
      exact hcs
    rw [show appStep s Event.simStep = simStepFn s from rfl,
      simStepFn_continue s ss hs hcv]
    refine ⟨hn, hia, hnc, ss1, _, hs1, rfl, hid, hdir, ?_⟩
    show simTargets (simTickNodes ss.simNodes (ss.alpha * (97/100))) = _
    rw [simTargets_tick]
    exact htg
  | inr h =>
    subst h
    rw [show appStep s Event.linkTick = linkTickFn s from rfl, linkTickFn_pre s hnc]
    exact ⟨hn, hia, hnc, ss1, ss, hs1, hs, hid, hdir, htg⟩

/-- The commit transition out of the node-movement phase is a converged
simulation tick that installs the structural rotation of the tree captured at
acceptance, with the snapped target positions. -/
theorem prePhase_commit (s1 s : AppState) (e : Event) (hp : PrePhase s1 s)
    (he : e = Event.simStep ∨ e = Event.linkTick) (hinv1 : invB s1 = true)
    (hcs : commitStepB s e = true) :
    e = Event.simStep ∧ simConvergingB s = true ∧
    (appStep s e).nodes = commitTree s1 := by
  obtain ⟨hn, hia, hnc, ss1, ss, hs1, hs, hid, hdir, htg⟩ := hp
  have he' : e = Event.simStep := by
    cases he with
    | inl h => exact h
    | inr h =>
      subst h
      rw [commitStepB_linkTick_pre s hnc] at hcs
      cases hcs
  subst he'
  have hcv : simConvergingB s = true := by
    rw [← commitStepB_simStep s ss hs]
    exact hcs
  have hok1 : commitOKB s1.nodes ss1 = true := by
    unfold invB at hinv1
    rw [hs1] at hinv1
    dsimp only at hinv1
    simp only [Bool.and_eq_true] at hinv1
    have h2 := hinv1.2
    unfold simOKB at h2
    rw [hs1] at h2
    exact h2
  have hok : commitOKB s.nodes ss = true := by
    rw [hn]
    unfold commitOKB at hok1 ⊢
    rw [hid, hdir]
    exact hok1
  refine ⟨rfl, hcv, ?_⟩
  rw [show appStep s Event.simStep = simStepFn s from rfl,
    simStepFn_commit s ss hs hcv hok]
  show applySimPositions (rotateStruct s.nodes ss.nodeId ss.dir)
      (snapSimNodes (simTickNodes ss.simNodes (ss.alpha * (97/100)))) = commitTree s1
  rw [hn, hid, hdir]
  unfold commitTree
  rw [hs1]
  apply applySimPositions_proj_congr
  rw [snapSimNodes_proj, snapSimNodes_proj, simTargets_tick, htg]

/-- Timer ticks never restart a finished simulation. -/
theorem tickStep_sim_none (s : AppState) (e : Event)
    (he : e = Event.simStep ∨ e = Event.linkTick) (hs : s.sim = none) :
    (appStep s e).sim = none := by
  cases he with
  | inl h =>
    subst h
    show (simStepFn s).sim = none
    unfold simStepFn
    rw [hs]
    exact hs
  | inr h =>
    subst h
    show (linkTickFn s).sim = none
    unfold linkTickFn
    split
    · split
      · exact hs
      · exact hs
    · exact hs

/-- After the simulation has ended, no further timer tick is a commit
transition. -/
theorem convCount_none (s : AppState) (es : List Event) (hs : s.sim = none)
    (htick : ∀ e ∈ es, e = Event.simStep ∨ e = Event.linkTick) :
    convCount s es = 0 := by
  induction es generalizing s with
  | nil => rfl
  | cons e t ih =>
    have he := htick e (List.mem_cons_self e t)
    have hcs : commitStepB s e = false := by
      unfold commitStepB
      rw [hs]
      rfl
    show (if commitStepB s e then 1 else 0) + convCount (appStep s e) t = 0
    rw [hcs]
    simp only [Bool.false_eq_true, if_false, Nat.zero_add]
    exact ih (appStep s e) (tickStep_sim_none s e he hs)
      (fun x hx => htick x (List.mem_cons_of_mem e hx))

/-- Along any run of timer ticks from a state in the node-movement phase of
the rotation accepted at `s1`: the commit transition happens at most once;
every prefix without it stays in the node-movement phase; and when it
happens, it is a converged simulation tick installing `commitTree s1`. -/
theorem prePhase_trace (s1 : AppState) (hinv1 : invB s1 = true) :
    ∀ (es : List Event), (∀ e ∈ es, e = Event.simStep ∨ e = Event.linkTick) →
    ∀ (s : AppState), PrePhase s1 s →
    convCount s es ≤ 1 ∧
    (∀ (k : Nat), convCount s (es.take k) = 0 →
      PrePhase s1 (runEvents s (es.take k))) ∧
    (∀ (k : Nat) (e : Event), es[k]? = some e → convCount s (es.take k) = 0 →
      commitStepB (runEvents s (es.take k)) e = true →
      e = Event.simStep ∧ simConvergingB (runEvents s (es.take k)) = true ∧
      (runEvents s (es.take (k + 1))).nodes = commitTree s1) := by
  intro es
  induction es with
  | nil =>
    intro _ s hp
    refine ⟨Nat.zero_le 1, ?_, ?_⟩
    · intro k _
      rw [List.take_nil]
      exact hp
    · intro k e hk
      rw [List.getElem?_nil] at hk
      cases hk
  | cons e0 t ih =>
    intro htick s hp
    have he0 := htick e0 (List.mem_cons_self e0 t)
    have htick' : ∀ x ∈ t, x = Event.simStep ∨ x = Event.linkTick :=
      fun x hx => htick x (List.mem_cons_of_mem e0 hx)
    cases hcs : commitStepB s e0 with
    | true =>
      have hsim' : (appStep s e0).sim = none := by
        unfold commitStepB at hcs
        simp only [Bool.and_eq_true, Option.isNone_iff_eq_none] at hcs
        exact hcs.2
      have hrest : convCount (appStep s e0) t = 0 :=
        convCount_none (appStep s e0) t hsim' htick'
      have hcommit := prePhase_commit s1 s e0 hp he0 hinv1 hcs
      refine ⟨?_, ?_, ?_⟩
      · show (if commitStepB s e0 then 1 else 0) + convCount (appStep s e0) t ≤ 1
        rw [hcs, hrest]
        simp
      · intro k hk
        cases k with
        | zero =>
          rw [List.take_zero]
          exact hp
        | succ j =>
          exfalso
          rw [List.take_succ_cons] at hk
          have hk' : (if commitStepB s e0 then 1 else 0) +
              convCount (appStep s e0) (t.take j) = 0 := hk
          rw [hcs] at hk'
          simp at hk'
      · intro k e hk hz hc2
        cases k with
        | zero =>
          rw [List.getElem?_cons_zero] at hk
          injection hk with hk
          subst hk
          rw [List.take_zero] at hc2 ⊢
          refine ⟨hcommit.1, hcommit.2.1, ?_⟩
          rw [List.take_succ_cons, List.take_zero]
          exact hcommit.2.2
        | succ j =>
          exfalso
          rw [List.take_succ_cons] at hz
          have hz' : (if commitStepB s e0 then 1 else 0) +
              convCount (appStep s e0) (t.take j) = 0 := hz
          rw [hcs] at hz'
          simp at hz'
    | false =>
      have hp' : PrePhase s1 (appStep s e0) := prePhase_step s1 s e0 hp he0 hcs
      obtain ⟨iha, ihb, ihc⟩ := ih htick' (appStep s e0) hp'
      refine ⟨?_, ?_, ?_⟩
      · show (if commitStepB s e0 then 1 else 0) + convCount (appStep s e0) t ≤ 1
        rw [hcs]
        simpa using iha
      · intro k hk
        cases k with
        | zero =>
          rw [List.take_zero]
          exact hp
        | succ j =>
          rw [List.take_succ_cons] at hk ⊢
          have hk' : (if commitStepB s e0 then 1 else 0) +
              convCount (appStep s e0) (t.take j) = 0 := hk
          rw [hcs] at hk'
          simp only [Bool.false_eq_true, if_false, Nat.zero_add] at hk'
          show PrePhase s1 (runEvents (appStep s e0) (t.take j))
          exact ihb j hk'
      · intro k e hk hz hc2
        cases k with
        | zero =>
          exfalso
          rw [List.getElem?_cons_zero] at hk
          injection hk with hk
          subst hk
          rw [List.take_zero] at hc2
          have hc2' : commitStepB s e0 = true := hc2
          rw [hcs] at hc2'
          cases hc2'
        | succ j =>
          rw [List.getElem?_cons_succ] at hk
          rw [List.take_succ_cons] at hz hc2 ⊢
          have hz' : (if commitStepB s e0 then 1 else 0) +
              convCount (appStep s e0) (t.take j) = 0 := hz
          rw [hcs] at hz'
          simp only [Bool.false_eq_true, if_false, Nat.zero_add] at hz'
          have hc2' : commitStepB (runEvents (appStep s e0) (t.take j)) e = true := hc2
          have hres := ihc j e hk hz' hc2'
          rw [List.take_succ_cons]
          exact hres

/-- Claim C3: during an accepted rotation (a state whose node-movement
simulation is running, with the engine-phase invariant), along every run of
engine timer ticks: the commit transition occurs at most once; while it has
not occurred the committed tree is unchanged and no animated link is rendered;
and when it occurs it is a simulation tick at convergence whose successor
state carries exactly the structural rotation of the tree captured at
acceptance with the snapped target positions (`commitTree`). -/
theorem c3_rotation_commit_once_ordered (s1 : AppState)
    (hs : s1.sim.isSome = true) (hinv : invB s1 = true)
    (es : List Event) (htick : ∀ e ∈ es, e = Event.simStep ∨ e = Event.linkTick) :
    convCount s1 es ≤ 1 ∧
    (∀ (k : Nat), convCount s1 (es.take k) = 0 →
      (runEvents s1 (es.take k)).nodes = s1.nodes ∧
      renderedAnimatedLinks (runEvents s1 (es.take k)) = []) ∧
    (∀ (k : Nat) (e : Event), es[k]? = some e → convCount s1 (es.take k) = 0 →
      commitStepB (runEvents s1 (es.take k)) e = true →
      e = Event.simStep ∧ simConvergingB (runEvents s1 (es.take k)) = true ∧
      (runEvents s1 (es.take (k + 1))).nodes = commitTree s1) := by
  obtain ⟨ss1, hss1⟩ := Option.isSome_iff_exists.1 hs
  have hinv' := hinv
  unfold invB at hinv'
  rw [hss1] at hinv'
  dsimp only at hinv'
  simp only [Bool.and_eq_true, Bool.not_eq_true'] at hinv'
  have hp : PrePhase s1 s1 :=
    ⟨rfl, hinv'.1.1, hinv'.1.2, ss1, ss1, hss1, hss1, rfl, rfl, rfl⟩
  obtain ⟨ha, hb, hc⟩ := prePhase_trace s1 hinv es htick s1 hp
  refine ⟨ha, ?_, hc⟩
  intro k hk
  obtain ⟨hn, _, hnc, _⟩ := hb k hk
  refine ⟨hn, ?_⟩
  unfold renderedAnimatedLinks
  rw [hnc]
  rfl

/-- Witness for C3: the accepted left rotation on the root of the two-node
tree, run through 69 simulation ticks and 21 link ticks. -/
theorem c3_rotation_commit_once_ordered_witness :
    c3s1.sim.isSome = true ∧ invB c3s1 = true ∧
    (convCount c3s1 c3es ≤ 1 ∧
     (∀ (k : Nat), convCount c3s1 (c3es.take k) = 0 →
       (runEvents c3s1 (c3es.take k)).nodes = c3s1.nodes ∧
       renderedAnimatedLinks (runEvents c3s1 (c3es.take k)) = []) ∧
     (∀ (k : Nat) (e : Event), c3es[k]? = some e →
       convCount c3s1 (c3es.take k) = 0 →
       commitStepB (runEvents c3s1 (c3es.take k)) e = true →
       e = Event.simStep ∧ simConvergingB (runEvents c3s1 (c3es.take k)) = true ∧
       (runEvents c3s1 (c3es.take (k + 1))).nodes = commitTree c3s1)) :=
  ⟨by with_unfolding_all decide, by with_unfolding_all decide,
   c3_rotation_commit_once_ordered c3s1 (by with_unfolding_all decide)
     (by with_unfolding_all decide) c3es (by decide)⟩
